import Mathlib

/-!
Verification of the rustcraft Minecraft server core against its specification.

The Rust sources are shallowly embedded: machine integers are modelled as
`Nat` (unsigned bit patterns) or `Int` (signed values) with explicit
wrap-around (`% 2^w`); Rust `Vec` becomes `List`; fallible operations return
`Option`/`Except`; a Rust panic (failed assertion, arithmetic on an
out-of-range index) is modelled as a distinguished outcome (`none` or a
dedicated constructor).  Rust's `/` on signed integers truncates towards
zero and is modelled by `Int.tdiv`; `rem_euclid` is `Int.emod`.
-/

set_option maxRecDepth 10000

namespace Rustcraft

/-! ## Integer casts

Rust casts between machine integers reinterpret or truncate two's-complement
bit patterns.  `toU32 v` is the bit pattern of an `i32` value (`v as u32`),
`toI32 n` reads a 32-bit pattern back as a signed value (`n as i32`), and
similarly for 64 bits.  `wrap32`/`wrap64` normalise an arbitrary integer to
the signed 32/64-bit value with the same low bits (the effect of Rust's
wrapping casts and shifts on signed integers). -/

def toU32 (v : Int) : Nat := (v % (2 ^ 32 : Int)).toNat

def toI32 (n : Nat) : Int := if n < 2 ^ 31 then (n : Int) else (n : Int) - 2 ^ 32

def toU64 (v : Int) : Nat := (v % (2 ^ 64 : Int)).toNat

def toI64 (n : Nat) : Int := if n < 2 ^ 63 then (n : Int) else (n : Int) - 2 ^ 64

def wrap32 (v : Int) : Int := (v + 2 ^ 31) % 2 ^ 32 - 2 ^ 31

def wrap64 (v : Int) : Int := (v + 2 ^ 63) % 2 ^ 64 - 2 ^ 63

/-! ## VarInt (src/protocol_types/primitives.rs)

`impl WriteProt for VarInt`: the value is cast to `u32` and emitted in 7-bit
groups, least significant first, with the high bit of a byte set iff more
groups follow.  `impl ReadProt for VarInt` accumulates the 7-bit groups into
an `i32` (shifts on `i32` discard overflowing bits, hence the `% 2 ^ 32`)
and fails with "VarInt is too big" once the shift position reaches 32.
`SizedProt::prot_size` counts the groups of the `u32` pattern. -/

def varIntWriteGo : Nat → Nat → List Nat
  | 0, x => [x &&& 127]
  | fuel + 1, x =>
    if x >>> 7 = 0 then [x &&& 127] else ((x &&& 127) ||| 128) :: varIntWriteGo fuel (x >>> 7)

def varIntWriteLoop (x : Nat) : List Nat := varIntWriteGo x x

def varIntReadLoop : List Nat → Nat → Nat → Option Nat
  | [], _, _ => none
  | b :: rest, pos, value =>
    let value := value ||| ((b &&& 127) <<< pos) % 2 ^ 32
    if b &&& 128 = 0 then some value
    else if pos + 7 ≥ 32 then none
    else varIntReadLoop rest (pos + 7) value

def VarInt.write (v : Int) : List Nat := varIntWriteLoop (toU32 v)

def VarInt.read (bytes : List Nat) : Option Int := (varIntReadLoop bytes 0 0).map toI32

def protSizeGo : Nat → Nat → Nat
  | 0, _ => 1
  | fuel + 1, x => if x >>> 7 = 0 then 1 else 1 + protSizeGo fuel (x >>> 7)

def protSizeLoop (x : Nat) : Nat := protSizeGo x x

def VarInt.prot_size (v : Int) : Nat := protSizeLoop (toU32 v)

/-! ## Position (src/protocol_types/compound.rs)

`struct Position { x: i32, z: i32, y: i32 }` with constructor
`Position::new(x, y, z)`.  `WriteProt` packs the low 26 bits of `x`, the low
26 bits of `z` and the low 12 bits of `y` into one 64-bit word
(`x` high, `z` middle, `y` low) and writes it big-endian; `ReadProt`
recovers the fields with arithmetic (sign-extending) shifts.  Rust's
`a & 0x3FFFFFF` on a two's-complement value keeps the low 26 bits, which is
`Int.emod` by `2 ^ 26`; `>>` on `i64` is floor division by the power of two;
`<<` wraps modulo `2 ^ 64` (`wrap64`); `as i32` is `wrap32`. -/

@[ext]

structure Position where
  x : Int
  z : Int
  y : Int
deriving DecidableEq, Repr

def Position.new (x y z : Int) : Position := { x := x, z := z, y := y }

def u64tou8abe (v : Nat) : List Nat :=
  [(v >>> 56) % 256, (v >>> 48) % 256, (v >>> 40) % 256, (v >>> 32) % 256,
   (v >>> 24) % 256, (v >>> 16) % 256, (v >>> 8) % 256, v % 256]

def readU64be : List Nat → Option Nat
  | b0 :: b1 :: b2 :: b3 :: b4 :: b5 :: b6 :: b7 :: _ =>
    some ((((((((b0 <<< 8 ||| b1) <<< 8 ||| b2) <<< 8 ||| b3) <<< 8 ||| b4) <<< 8
      ||| b5) <<< 8 ||| b6) <<< 8) ||| b7)
  | _ => none

def positionWord (p : Position) : Nat :=
  ((p.x % 2 ^ 26).toNat <<< 38 ||| (p.z % 2 ^ 26).toNat <<< 12) ||| (p.y % 2 ^ 12).toNat

def Position.write (p : Position) : List Nat := u64tou8abe (positionWord p)

def Position.read (bs : List Nat) : Option Position :=
  (readU64be bs).map fun w =>
    { x := wrap32 (toI64 w / 2 ^ 38),
      z := wrap32 (wrap64 (toI64 w * 2 ^ 26) / 2 ^ 38),
      y := wrap32 (wrap64 (toI64 w * 2 ^ 52) / 2 ^ 52) }

/-! ## World::chunk_pos_for_global_pos (src/chunk/world.rs)

Rust `/` on `i32` truncates towards zero (`Int.tdiv`); the function adds an
offset of `-1` for every negative coordinate. -/

def SECTION_EDGE : Nat := 16

def World.chunk_pos_for_global_pos (global_pos : Position) : Position :=
  let offset_neg_x : Int := if global_pos.x < 0 then -1 else 0
  let offset_neg_y : Int := if global_pos.y < 0 then -1 else 0
  let offset_neg_z : Int := if global_pos.z < 0 then -1 else 0
  Position.new (Int.tdiv global_pos.x (SECTION_EDGE : Int) + offset_neg_x)
    (Int.tdiv global_pos.y (SECTION_EDGE : Int) + offset_neg_y)
    (Int.tdiv global_pos.z (SECTION_EDGE : Int) + offset_neg_z)

/-! ## Handshake handler (src/packets/server.rs) and ProtError (src/err.rs)

The handler calls `set_state` with the result of an `if` chain over
`next_state`; the `else` arm returns `Err(InvalidNextState)` from the closure
before `set_state` is ever invoked, so on the error path the connection
state is left as it was.  The model returns the resulting state together
with the handler's `Result`. -/

inductive ConnectionState
  | handshake
  | status
  | login
  | configuration
  | play
deriving DecidableEq, Repr

inductive ClientPackets
  | statusRes
  | pingRes
deriving DecidableEq, Repr

inductive ProtError
  | invalidNextState (v : Int)
  | channelClosed
  | keepAliveIdMismatch (a b : Int)
  | teleportIdMismatch (a b : Int)
  | positionOutOfBounds (p : Position)
  | any (s : String)
deriving DecidableEq, Repr

def ProtError.is_fatal : ProtError → Bool
  | .invalidNextState _ => true
  | .keepAliveIdMismatch _ _ => true
  | .teleportIdMismatch _ _ => true
  | .positionOutOfBounds _ => true
  | .channelClosed => true
  | .any _ => false

def handshakeHandle (next_state : Int) (state : ConnectionState) :
    ConnectionState × Except ProtError (List ClientPackets) :=
  if next_state = 1 then (ConnectionState.status, Except.ok [])
  else if next_state = 2 then (ConnectionState.login, Except.ok [])
  else (state, Except.error (ProtError.invalidNextState next_state))

/-! ## hexdigest (src/encryption.rs)

`hexdigest` interprets the digest as a big-endian two's-complement signed
big integer (`BigInt::from_signed_bytes_be`), takes the absolute value,
formats it with `format!("{:x}", _)` (minimal-length lowercase hex, `"0"`
for zero), strips leading `'0'` characters (`trim_start_matches("0")`) and
prefixes `'-'` when the value was negative. -/

def beNat (bs : List Nat) : Nat := bs.foldl (fun a b => 256 * a + b) 0

def fromSignedBytesBE : List Nat → Int
  | [] => 0
  | b :: rest =>
    if b ≥ 128 then (beNat (b :: rest) : Int) - 2 ^ (8 * (b :: rest).length)
    else (beNat (b :: rest) : Int)

def hexChar (n : Nat) : Char := if n < 10 then Char.ofNat (48 + n) else Char.ofNat (87 + n)

def natToHexGo : Nat → Nat → List Char → List Char
  | 0, n, acc => hexChar n :: acc
  | fuel + 1, n, acc =>
    if n < 16 then hexChar n :: acc else natToHexGo fuel (n / 16) (hexChar (n % 16) :: acc)

def natToHexAux (n : Nat) (acc : List Char) : List Char := natToHexGo n n acc

def natToHex (n : Nat) : String := String.mk (natToHexAux n [])

def hexdigest (bytes : List Nat) : String :=
  if fromSignedBytesBE bytes < 0 then
    "-" ++ String.mk ((natToHexAux (-fromSignedBytesBE bytes).toNat []).dropWhile (fun c => c = '0'))
  else
    String.mk ((natToHexAux (fromSignedBytesBE bytes).toNat []).dropWhile (fun c => c = '0'))

/-- Modelled from the spec: the formatting rule of §6.2 — interpret the
digest as a big-endian two's-complement signed integer and emit its
lowercase hex representation (of the absolute value, `'-'`-prefixed when
negative). -/
def hexdigestSpec (bytes : List Nat) : String :=
  if fromSignedBytesBE bytes < 0 then "-" ++ natToHex (fromSignedBytesBE bytes).natAbs
  else natToHex (fromSignedBytesBE bytes).natAbs

/-- Modelled from the spec: SHA-1 (FIPS 180-4), named by the spec for the
session hash; the implementation in the source is the external `sha1`
crate.  Bytes and 32-bit words are `Nat`s reduced modulo `2 ^ 32`. -/
def rotl32 (n k : Nat) : Nat := ((n <<< k) ||| (n >>> (32 - k))) % 2 ^ 32

def sha1Pad (msg : List Nat) : List Nat :=
  msg ++ [128] ++ List.replicate ((119 - msg.length % 64) % 64) 0 ++ u64tou8abe (8 * msg.length)

def bytesToWords : List Nat → List Nat
  | b0 :: b1 :: b2 :: b3 :: rest => (((b0 * 256 + b1) * 256 + b2) * 256 + b3) :: bytesToWords rest
  | _ => []

def sha1Ws (block : List Nat) : List Nat :=
  (List.range 80).foldl (fun ws i =>
    if i < 16 then ws ++ [block.getD i 0]
    else ws ++ [rotl32 ((ws.getD (i - 3) 0) ^^^ (ws.getD (i - 8) 0) ^^^
      (ws.getD (i - 14) 0) ^^^ (ws.getD (i - 16) 0)) 1]) []

def sha1Round (i : Nat) (st : Nat × Nat × Nat × Nat × Nat) (wi : Nat) :
    Nat × Nat × Nat × Nat × Nat :=
  let a := st.1
  let b := st.2.1
  let c := st.2.2.1
  let d := st.2.2.2.1
  let e := st.2.2.2.2
  let f :=
    if i < 20 then (b &&& c) ||| (((2 ^ 32 - 1) ^^^ b) &&& d)
    else if i < 40 then b ^^^ c ^^^ d
    else if i < 60 then (b &&& c) ||| (b &&& d) ||| (c &&& d)
    else b ^^^ c ^^^ d
  let k :=
    if i < 20 then 0x5A827999
    else if i < 40 then 0x6ED9EBA1
    else if i < 60 then 0x8F1BBCDC
    else 0xCA62C1D6
  let temp := (rotl32 a 5 + f + e + k + wi) % 2 ^ 32
  (temp, a, rotl32 b 30, c, d)

def sha1Block (h : Nat × Nat × Nat × Nat × Nat) (block : List Nat) :
    Nat × Nat × Nat × Nat × Nat :=
  let ws := sha1Ws block
  let st := (List.range 80).foldl (fun st i => sha1Round i st (ws.getD i 0)) h
  ((h.1 + st.1) % 2 ^ 32, (h.2.1 + st.2.1) % 2 ^ 32, (h.2.2.1 + st.2.2.1) % 2 ^ 32,
    (h.2.2.2.1 + st.2.2.2.1) % 2 ^ 32, (h.2.2.2.2 + st.2.2.2.2) % 2 ^ 32)

def sha1Go : Nat → Nat × Nat × Nat × Nat × Nat → List Nat → Nat × Nat × Nat × Nat × Nat
  | _, h, [] => h
  | 0, h, _ :: _ => h
  | fuel + 1, h, b :: rest =>
    sha1Go fuel (sha1Block h (bytesToWords ((b :: rest).take 64))) ((b :: rest).drop 64)

def sha1Loop (h : Nat × Nat × Nat × Nat × Nat) (bytes : List Nat) :
    Nat × Nat × Nat × Nat × Nat :=
  sha1Go bytes.length h bytes

def u32tou8abe (v : Nat) : List Nat := [(v >>> 24) % 256, (v >>> 16) % 256, (v >>> 8) % 256, v % 256]

def sha1 (msg : List Nat) : List Nat :=
  let st := sha1Loop (0x67452301, 0xEFCDAB89, 0x98BADCFE, 0x10325476, 0xC3D2E1F0) (sha1Pad msg)
  u32tou8abe st.1 ++ u32tou8abe st.2.1 ++ u32tou8abe st.2.2.1 ++
    u32tou8abe st.2.2.2.1 ++ u32tou8abe st.2.2.2.2

def asciiBytes (s : String) : List Nat := s.data.map Char.toNat

/-! ## PackedArray (src/chunk/packed_array.rs)

A fixed-length array of `bits_per_value`-bit values packed into 64-bit
words, values never crossing a word boundary.  `set` asserts
`index < length` and `value <= max_value` (a Rust panic, modelled by
`none`); `get` returns `None` past the length.  `!(mask << bit_index)` on
`u64` is `2 ^ 64 - 1 - (mask <<< bit_index)` (subtracting a value below
`2 ^ 64` from all-ones flips exactly its bits). -/

structure PackedArray where
  length : Nat
  bits_per_value : Nat
  bits : List Nat
deriving DecidableEq, Repr

def PackedArray.mask (a : PackedArray) : Nat := 2 ^ a.bits_per_value - 1

def PackedArray.max_value (a : PackedArray) : Nat := a.mask

def PackedArray.values_per_u64 (a : PackedArray) : Nat := 64 / a.bits_per_value

def PackedArray.needed_u64s (a : PackedArray) : Nat :=
  (a.length + a.values_per_u64 - 1) / a.values_per_u64

def PackedArray.new (length bits_per_value : Nat) : PackedArray :=
  let this : PackedArray := ⟨length, bits_per_value, []⟩
  { this with bits := List.replicate this.needed_u64s 0 }

def PackedArray.get (a : PackedArray) (index : Nat) : Option Nat :=
  if index ≥ a.length then none
  else
    some ((a.bits.getD (index / a.values_per_u64) 0 >>>
      (index % a.values_per_u64 * a.bits_per_value)) &&& a.mask)

def PackedArray.set (a : PackedArray) (index value : Nat) : Option PackedArray :=
  if index < a.length then
    if value ≤ a.mask then
      some { a with bits :=
        (a.bits.set (index / a.values_per_u64)
          ((a.bits.getD (index / a.values_per_u64) 0 &&&
              (2 ^ 64 - 1 - (a.mask <<< (index % a.values_per_u64 * a.bits_per_value)))) |||
            (value <<< (index % a.values_per_u64 * a.bits_per_value)))) }
    else none
  else none

def PackedArray.iter (a : PackedArray) : List Nat :=
  ((a.bits.map fun w =>
    (List.range a.values_per_u64).map fun i =>
      (w >>> (i * a.bits_per_value)) &&& a.mask).flatten).take a.length

def fromIterStep (bits_per_value : Nat) (st : List Nat × Nat × Nat × Nat) (value : Nat) :
    List Nat × Nat × Nat × Nat :=
  let current_u64 := st.2.1 ||| (value <<< st.2.2.1)
  let current_offset := st.2.2.1 + bits_per_value
  if current_offset > 64 - bits_per_value then (st.1 ++ [current_u64], 0, 0, st.2.2.2 + 1)
  else (st.1, current_u64, current_offset, st.2.2.2 + 1)

def PackedArray.from_iter (vals : List Nat) (bits_per_value : Nat) : PackedArray :=
  let st := vals.foldl (fromIterStep bits_per_value) ([], 0, 0, 0)
  { length := st.2.2.2, bits_per_value := bits_per_value,
    bits := if st.2.2.1 ≠ 0 then st.1 ++ [st.2.1] else st.1 }

def PackedArray.resized (a : PackedArray) (new_bits_per_value : Nat) : PackedArray :=
  PackedArray.from_iter a.iter new_bits_per_value

def PackedArray.write (a : PackedArray) : List Nat :=
  varIntWriteLoop (a.needed_u64s % 2 ^ 32) ++ (a.bits.map u64tou8abe).flatten

/-! ## Palette and PalettedContainer (src/chunk/palette.rs)

The palette's `id_to_state` HashMap receives sequential ids starting from 0
(`id = id_to_state.len()` on insertion), so its key set is always
`0..len-1` and it is modelled as a list indexed by id; the reverse map
`state_to_id` is the index of the (never duplicated) value, modelled by
`lookupIdx`.  `set_at`'s `Err(PositionOutOfBounds)` and the panics of the
underlying `PackedArray` accesses are distinguished by `SetResult`. -/

inductive PaletteKind
  | blocks
  | biomes
deriving DecidableEq, Repr

inductive PaletteValue
  | block (v : Nat)
  | biome (v : Nat)
deriving DecidableEq, Repr

def PaletteValue.toU64 : PaletteValue → Nat
  | .block v => v
  | .biome v => v

def PaletteValue.u32 : PaletteValue → Nat
  | .block v => v % 2 ^ 32
  | .biome v => v % 2 ^ 32

def SECTION_BLOCKS : Nat := SECTION_EDGE * SECTION_EDGE * SECTION_EDGE

def GLOBAL_PALETTE_BITS_BLOCKS : Nat := 15

def GLOBAL_PALETTE_BITS_BIOMES : Nat := 6

def MIN_PALETTE_BITS_BLOCKS : Nat := 4

def MIN_PALETTE_BITS_BIOMES : Nat := 1

def MAX_PALETTE_BITS_BLOCKS : Nat := 8

def MAX_PALETTE_BITS_BIOMES : Nat := 3

def AIR : Nat := 0

def PaletteKind.int_val : PaletteKind → Nat → PaletteValue
  | .blocks, value => .block (value % 2 ^ 32)
  | .biomes, value => .biome (value % 2 ^ 32)

def PaletteKind.neutral : PaletteKind → PaletteValue
  | .blocks => .block 0
  | .biomes => .biome 39

def PaletteKind.container_length : PaletteKind → Nat
  | .blocks => SECTION_BLOCKS
  | .biomes => SECTION_BLOCKS / 4

def PaletteKind.min_palette_bits : PaletteKind → Nat
  | .blocks => MIN_PALETTE_BITS_BLOCKS
  | .biomes => MIN_PALETTE_BITS_BIOMES

def PaletteKind.max_palette_bits : PaletteKind → Nat
  | .blocks => MAX_PALETTE_BITS_BLOCKS
  | .biomes => MAX_PALETTE_BITS_BIOMES

def PaletteKind.global_palette_bits : PaletteKind → Nat
  | .blocks => GLOBAL_PALETTE_BITS_BLOCKS
  | .biomes => GLOBAL_PALETTE_BITS_BIOMES

def PaletteKind.section_edge : PaletteKind → Nat
  | .blocks => SECTION_EDGE
  | .biomes => SECTION_EDGE / 4

def PaletteKind.section_blocks : PaletteKind → Nat
  | .blocks => SECTION_BLOCKS
  | .biomes => SECTION_BLOCKS / 4

structure Palette where
  id_to_state : List PaletteValue
  kind : PaletteKind
deriving DecidableEq, Repr

def Palette.new (kind : PaletteKind) : Palette := ⟨[kind.neutral], kind⟩

def Palette.len (p : Palette) : Nat := p.id_to_state.length

def Palette.get (p : Palette) (id : Nat) : PaletteValue :=
  p.id_to_state.getD id p.kind.neutral

def lookupIdx : List PaletteValue → PaletteValue → Option Nat
  | [], _ => none
  | e :: rest, v => if e = v then some 0 else (lookupIdx rest v).map (· + 1)

def Palette.index_or_insert (p : Palette) (state : PaletteValue) : Palette × Nat :=
  match lookupIdx p.id_to_state state with
  | some id => (p, id)
  | none => ({ p with id_to_state := p.id_to_state ++ [state] }, p.id_to_state.length)

def Palette.writeWithOrder (p : Palette) (order : List (Nat × PaletteValue)) : List Nat :=
  varIntWriteLoop (p.len % 2 ^ 32) ++
    (order.map fun e => varIntWriteLoop e.2.u32).flatten

structure PalettedContainer where
  palette : Option Palette
  data : PackedArray
  kind : PaletteKind
deriving DecidableEq, Repr

def PalettedContainer.new_blocks : PalettedContainer :=
  ⟨some (Palette.new .blocks),
    PackedArray.new PaletteKind.blocks.container_length PaletteKind.blocks.min_palette_bits,
    .blocks⟩

def PalettedContainer.new_biomes : PalettedContainer :=
  ⟨some (Palette.new .biomes),
    PackedArray.new PaletteKind.biomes.container_length PaletteKind.biomes.min_palette_bits,
    .biomes⟩

def i32shl (a : Int) (k : Nat) : Int := toI32 ((toU32 a <<< k) % 2 ^ 32)

def i32or (a b : Int) : Int := toI32 (toU32 a ||| toU32 b)

def PalettedContainer.block_index (c : PalettedContainer) (position : Position) : Option Nat :=
  if position.x ≥ (c.kind.section_edge : Int) ∨ position.y ≥ (c.kind.section_edge : Int) ∨
      position.z ≥ (c.kind.section_edge : Int) then
    none
  else
    match c.kind with
    | .blocks => some (toU64 (i32or (i32or (i32shl position.y 8) (i32shl position.z 4)) position.x))
    | .biomes => some (toU64 (i32or (i32or (i32shl position.y 4) (i32shl position.z 2)) position.x))

def PalettedContainer.get_at (c : PalettedContainer) (position : Position) : Option PaletteValue :=
  match c.block_index position with
  | some index =>
    match c.palette with
    | some palette => (c.data.get index).map fun raw => palette.get (raw % 2 ^ 32)
    | none => (c.data.get index).map fun raw => c.kind.int_val raw
  | none => some c.kind.neutral

def promoteGo (palette : Palette) (kind : PaletteKind) : Nat → PackedArray → Option PackedArray
  | 0, d => some d
  | i + 1, d =>
    match promoteGo palette kind i d with
    | none => none
    | some d2 =>
      match d2.get i with
      | none => none
      | some raw => d2.set i (palette.get (raw % 2 ^ 32)).toU64

inductive SetResult
  | ok (c : PalettedContainer)
  | err (e : ProtError)
  | panicked
deriving DecidableEq, Repr

def PalettedContainer.resize_palette (c : PalettedContainer) :
    Option (PalettedContainer × Bool) :=
  match c.palette with
  | none => none
  | some palette =>
    if palette.len - 1 > c.data.max_value then
      if c.data.bits_per_value + 1 > c.kind.max_palette_bits then
        match promoteGo palette c.kind c.kind.section_blocks
            (c.data.resized c.kind.global_palette_bits) with
        | none => none
        | some data => some ({ c with palette := none, data := data }, true)
      else some ({ c with data := c.data.resized (c.data.bits_per_value + 1) }, false)
    else some (c, false)

def PalettedContainer.set_at (c : PalettedContainer) (position : Position)
    (block_state : PaletteValue) : SetResult :=
  match c.block_index position with
  | none => .err (.positionOutOfBounds position)
  | some index =>
    match c.palette with
    | some palette =>
      let pr := palette.index_or_insert block_state
      match PalettedContainer.resize_palette { c with palette := some pr.1 } with
      | none => .panicked
      | some (c3, promoted) =>
        match c3.data.set index (if promoted then block_state.toU64 else pr.2) with
        | none => .panicked
        | some data => .ok { c3 with data := data }
    | none =>
      match c.data.set index block_state.toU64 with
      | none => .panicked
      | some data => .ok { c with data := data }

def PalettedContainer.write (c : PalettedContainer) (paletteOrder : List (Nat × PaletteValue)) :
    List Nat :=
  match c.palette with
  | some pal =>
    if pal.len = 1 then
      [0] ++ varIntWriteLoop (pal.id_to_state.getD 0 c.kind.neutral).u32 ++ c.data.write
    else
      [c.data.bits_per_value % 256] ++ pal.writeWithOrder paletteOrder ++ c.data.write
  | none => [c.data.bits_per_value % 256] ++ c.data.write

/-! ## ChunkSection (src/chunk/section.rs)

`update_air_at` runs before `set_at` in `set_block`; `air_count` is a `u16`
whose increments and decrements wrap modulo `2 ^ 16` (release-build
semantics of Rust integer overflow). -/

structure ChunkSection where
  air_count : Nat
  blocks : PalettedContainer
  biomes : PalettedContainer
deriving DecidableEq, Repr

def ChunkSection.new : ChunkSection :=
  ⟨SECTION_BLOCKS % 2 ^ 16, PalettedContainer.new_blocks, PalettedContainer.new_biomes⟩

def ChunkSection.block (s : ChunkSection) (position : Position) : Option Nat :=
  (s.blocks.get_at position).map fun v =>
    match v with
    | .block state => state
    | _ => AIR

def ChunkSection.update_air_at (s : ChunkSection) (position : Position) (new : Nat) :
    Option ChunkSection :=
  (s.block position).map fun old =>
    if old = AIR ∧ new ≠ AIR then { s with air_count := (s.air_count + 2 ^ 16 - 1) % 2 ^ 16 }
    else if old ≠ AIR ∧ new = AIR then { s with air_count := (s.air_count + 1) % 2 ^ 16 }
    else s

def ChunkSection.set_block (s : ChunkSection) (position : Position) (state : Nat) :
    Option (ChunkSection × Except ProtError Unit) :=
  match s.update_air_at position state with
  | none => none
  | some s2 =>
    match s2.blocks.set_at position (.block state) with
    | .ok blocks2 => some ({ s2 with blocks := blocks2 }, .ok ())
    | .err e => some (s2, .error e)
    | .panicked => none

/-! ## Abstraction layer for PackedArray proofs

`chunkVal (2 ^ b) c` is the 64-bit word holding the digit list `c` packed
from the least significant bit upwards, `b` bits per digit; `chunksOf m`
splits a value list into chunks of `m + 1` digits (the last one possibly
shorter), matching `from_iter`'s flushing. -/

def chunkVal (B : Nat) : List Nat → Nat
  | [] => 0
  | d :: l => d + B * chunkVal B l

def chunksOf (m : Nat) : List Nat → List (List Nat)
  | [] => []
  | v :: rest => ((v :: rest).take (m + 1)) :: chunksOf m ((v :: rest).drop (m + 1))
termination_by l => l.length
decreasing_by simp only [List.length_drop, List.length_cons]; omega

/-! ## Sequences of `set_at` calls on a block container (claim C2's harness) -/

/-- In-range local block position: all coordinates in `0..15`. -/
abbrev inRange16 (p : Position) : Prop :=
  0 ≤ p.x ∧ p.x < 16 ∧ 0 ≤ p.y ∧ p.y < 16 ∧ 0 ≤ p.z ∧ p.z < 16

/-- The voxel index `y * 256 + z * 16 + x` that `block_index` computes for an
in-range block position. -/
def specIndex (p : Position) : Nat := p.y.toNat * 256 + p.z.toNat * 16 + p.x.toNat

/-- Run a list of `set_at` calls left to right, `none` when one of them does
not return `.ok`. -/
def applyOps : PalettedContainer → List (Position × Nat) → Option PalettedContainer
  | c, [] => some c
  | c, op :: rest =>
    match c.set_at op.1 (.block op.2) with
    | .ok c2 => applyOps c2 rest
    | _ => none

/-- The value most recently written at `p` by `ops`, or `AIR` when none was. -/
def lastWrite (ops : List (Position × Nat)) (p : Position) : Nat :=
  ops.foldl (fun acc op => if op.1 = p then op.2 else acc) AIR

/-- Abstraction invariant for the indirect (palette-backed) state of a block
container: `ids` are the stored palette indices, `vs` the block states they
denote, `written` the values of the `set_at` calls performed so far. -/
abbrev palInv (vs written : List Nat) (pal : Palette) (c : PalettedContainer) : Prop :=
  pal.kind = .blocks ∧
  (∀ e ∈ pal.id_to_state, ∃ w, e = PaletteValue.block w ∧ w < 2 ^ 15) ∧
  (∀ w ∈ written, PaletteValue.block w ∈ pal.id_to_state) ∧
  ∃ b ids, 4 ≤ b ∧ b ≤ 8 ∧ pal.len ≤ 2 ^ b ∧ ids.length = 4096 ∧
    c.data = PackedArray.from_iter ids b ∧
    (∀ i, i < 4096 → ids.getD i 0 < pal.len ∧
      pal.get (ids.getD i 0) = PaletteValue.block (vs.getD i 0))

/-- Abstraction invariant tying a block `PalettedContainer` to the plain list
`vs` of the 4096 block states it stores. -/
abbrev blocksInv (vs written : List Nat) (c : PalettedContainer) : Prop :=
  c.kind = .blocks ∧ vs.length = 4096 ∧ (∀ w ∈ vs, w < 2 ^ 15) ∧
  ((c.palette = none ∧ c.data = PackedArray.from_iter vs 15) ∨
    (∃ pal, c.palette = some pal ∧ palInv vs written pal c))

theorem varIntWriteGo_congr (x : Nat) : ∀ f g, x ≤ f → x ≤ g →
    varIntWriteGo f x = varIntWriteGo g x := by
  induction x using Nat.strong_induction_on with
  | _ x ih =>
    intro f g hf hg
    have hshift : x >>> 7 = x / 128 := by rw [Nat.shiftRight_eq_div_pow]
    by_cases h7 : x >>> 7 = 0
    · cases f <;> cases g <;> simp [varIntWriteGo, h7]
    · have hx : 128 ≤ x := by rw [hshift] at h7; omega
      obtain ⟨f', rfl⟩ : ∃ f', f = f' + 1 := ⟨f - 1, by omega⟩
      obtain ⟨g', rfl⟩ : ∃ g', g = g' + 1 := ⟨g - 1, by omega⟩
      simp only [varIntWriteGo, if_neg h7]
      have hlt : x >>> 7 < x := by rw [hshift]; omega
      rw [ih (x >>> 7) hlt f' g' (by omega) (by omega)]

theorem varIntWriteLoop_eq (x : Nat) : varIntWriteLoop x =
    if x >>> 7 = 0 then [x &&& 127] else ((x &&& 127) ||| 128) :: varIntWriteLoop (x >>> 7) := by
  have hshift : x >>> 7 = x / 128 := by rw [Nat.shiftRight_eq_div_pow]
  by_cases h7 : x >>> 7 = 0
  · rw [if_pos h7]
    unfold varIntWriteLoop
    cases x <;> simp [varIntWriteGo, h7]
  · rw [if_neg h7]
    have hx : 128 ≤ x := by rw [hshift] at h7; omega
    obtain ⟨x', rfl⟩ : ∃ x', x = x' + 1 := ⟨x - 1, by omega⟩
    unfold varIntWriteLoop
    show varIntWriteGo (x' + 1) (x' + 1) = _
    simp only [varIntWriteGo, if_neg h7]
    rw [varIntWriteGo_congr ((x' + 1) >>> 7) x' ((x' + 1) >>> 7) (by rw [hshift]; omega) (le_refl _)]

theorem protSizeGo_congr (x : Nat) : ∀ f g, x ≤ f → x ≤ g →
    protSizeGo f x = protSizeGo g x := by
  induction x using Nat.strong_induction_on with
  | _ x ih =>
    intro f g hf hg
    have hshift : x >>> 7 = x / 128 := by rw [Nat.shiftRight_eq_div_pow]
    by_cases h7 : x >>> 7 = 0
    · cases f <;> cases g <;> simp [protSizeGo, h7]
    · have hx : 128 ≤ x := by rw [hshift] at h7; omega
      obtain ⟨f', rfl⟩ : ∃ f', f = f' + 1 := ⟨f - 1, by omega⟩
      obtain ⟨g', rfl⟩ : ∃ g', g = g' + 1 := ⟨g - 1, by omega⟩
      simp only [protSizeGo, if_neg h7]
      have hlt : x >>> 7 < x := by rw [hshift]; omega
      rw [ih (x >>> 7) hlt f' g' (by omega) (by omega)]

theorem protSizeLoop_eq (x : Nat) : protSizeLoop x =
    if x >>> 7 = 0 then 1 else 1 + protSizeLoop (x >>> 7) := by
  have hshift : x >>> 7 = x / 128 := by rw [Nat.shiftRight_eq_div_pow]
  by_cases h7 : x >>> 7 = 0
  · rw [if_pos h7]
    unfold protSizeLoop
    cases x <;> simp [protSizeGo, h7]
  · rw [if_neg h7]
    have hx : 128 ≤ x := by rw [hshift] at h7; omega
    obtain ⟨x', rfl⟩ : ∃ x', x = x' + 1 := ⟨x - 1, by omega⟩
    unfold protSizeLoop
    show protSizeGo (x' + 1) (x' + 1) = _
    simp only [protSizeGo, if_neg h7]
    rw [protSizeGo_congr ((x' + 1) >>> 7) x' ((x' + 1) >>> 7) (by rw [hshift]; omega) (le_refl _)]

/-! Helper facts about 7-bit groups. -/

theorem and_127_eq_mod (x : Nat) : x &&& 127 = x % 128 :=
  Nat.and_pow_two_sub_one_eq_mod x 7

theorem and_128_eq_zero {x : Nat} (h : x < 128) : x &&& 128 = 0 := by
  have h7 : x.testBit 7 = false := Nat.testBit_lt_two_pow (by norm_num at h ⊢; omega)
  have := Nat.and_two_pow x 7
  norm_num [h7] at this
  simpa using this

theorem shiftRight7_eq (x : Nat) : x >>> 7 = x / 128 := by
  rw [Nat.shiftRight_eq_div_pow]

theorem lor_small_eq_add {a : Nat} (b pos : Nat) (ha : a < 2 ^ pos) :
    a ||| b * 2 ^ pos = a + b * 2 ^ pos := by
  have h := (Nat.mul_add_lt_is_or ha b).symm
  rw [Nat.lor_comm, Nat.mul_comm b (2 ^ pos), h]
  omega

theorem varIntReadLoop_writeLoop (x : Nat) : ∀ pos acc, acc < 2 ^ pos →
    x < 2 ^ (32 - pos) → pos ≤ 31 →
    varIntReadLoop (varIntWriteLoop x) pos acc = some (acc + x * 2 ^ pos) := by
  induction x using Nat.strong_induction_on with
  | _ x ih =>
    intro pos acc hacc hx hpos
    have hmul : ∀ c : Nat, c < 2 ^ (32 - pos) → c * 2 ^ pos < 2 ^ 32 := by
      intro c hc
      calc c * 2 ^ pos < 2 ^ (32 - pos) * 2 ^ pos :=
            mul_lt_mul_of_pos_right hc (Nat.pos_pow_of_pos pos (by norm_num))
        _ = 2 ^ 32 := by rw [← pow_add]; congr 1; omega
    rw [varIntWriteLoop_eq]
    by_cases h7 : x >>> 7 = 0
    · have hx128 : x < 128 := by
        rw [shiftRight7_eq] at h7
        omega
      have hb : x &&& 127 = x := by rw [and_127_eq_mod, Nat.mod_eq_of_lt hx128]
      rw [if_pos h7]
      simp only [varIntReadLoop, hb, and_128_eq_zero hx128, if_pos]
      rw [Nat.shiftLeft_eq, Nat.mod_eq_of_lt (hmul x hx), lor_small_eq_add x pos hacc]
    · have hx128 : 128 ≤ x := by
        rw [shiftRight7_eq] at h7
        omega
      have hexp : 7 < 32 - pos := by
        have h27 : (2 : Nat) ^ 7 < 2 ^ (32 - pos) := lt_of_le_of_lt (by omega : 2 ^ 7 ≤ x) hx
        exact (Nat.pow_lt_pow_iff_right (by norm_num)).mp h27
      have hb128 : ((x &&& 127) ||| 128) &&& 128 = 128 := by
        rw [Nat.and_distrib_right, and_128_eq_zero (by rw [and_127_eq_mod]; omega)]
        simp
      have hb127 : ((x &&& 127) ||| 128) &&& 127 = x % 128 := by
        rw [Nat.and_distrib_right, Nat.and_assoc]
        norm_num [and_127_eq_mod]
      have hmod : x % 128 < 2 ^ (32 - pos) := by
        have h1 : x % 128 < 128 := Nat.mod_lt _ (by norm_num)
        have h2 : (128 : Nat) ≤ 2 ^ (32 - pos) := by
          calc (128 : Nat) = 2 ^ 7 := by norm_num
            _ ≤ 2 ^ (32 - pos) := Nat.pow_le_pow_right (by norm_num) (by omega)
        omega
      have hacc' : acc + x % 128 * 2 ^ pos < 2 ^ (pos + 7) := by
        have h1 : x % 128 < 128 := Nat.mod_lt _ (by norm_num)
        have h2 := Nat.mul_le_mul_right (2 ^ pos) (by omega : x % 128 ≤ 127)
        have h3 : 2 ^ (pos + 7) = 128 * 2 ^ pos := by rw [pow_add]; ring
        omega
      have hx' : x >>> 7 < 2 ^ (32 - (pos + 7)) := by
        rw [shiftRight7_eq]
        have hpow : 2 ^ (32 - pos) = 2 ^ (32 - (pos + 7)) * 128 := by
          rw [show (128 : Nat) = 2 ^ 7 by norm_num, ← pow_add]
          congr 1
          omega
        exact Nat.div_lt_of_lt_mul (by omega)
      have hlt : x >>> 7 < x := by
        rw [shiftRight7_eq]
        omega
      have hrec := ih (x >>> 7) hlt (pos + 7) (acc + x % 128 * 2 ^ pos) hacc' hx' (by omega)
      rw [if_neg h7]
      simp only [varIntReadLoop, hb127, hb128]
      rw [if_neg (by norm_num), if_neg (by omega : ¬pos + 7 ≥ 32)]
      rw [Nat.shiftLeft_eq, Nat.mod_eq_of_lt (hmul _ hmod), lor_small_eq_add _ pos hacc, hrec]
      congr 1
      have hsplit : x = 128 * (x / 128) + x % 128 := (Nat.div_add_mod x 128).symm
      rw [shiftRight7_eq]
      conv_rhs => rw [hsplit]
      rw [pow_add]
      ring

theorem protSizeLoop_eq_length (x : Nat) : protSizeLoop x = (varIntWriteLoop x).length := by
  induction x using Nat.strong_induction_on with
  | _ x ih =>
    rw [protSizeLoop_eq, varIntWriteLoop_eq]
    by_cases h7 : x >>> 7 = 0
    · simp [h7]
    · have hx : x ≠ 0 := by
        intro h0
        simp [h0] at h7
      simp only [if_neg h7, List.length_cons]
      rw [ih (x >>> 7) (by rw [shiftRight7_eq]; exact Nat.div_lt_self (Nat.pos_of_ne_zero hx) (by norm_num))]
      omega

theorem writeLoop_length_le (k : Nat) : ∀ x, 1 ≤ k → x < 2 ^ (7 * k) →
    (varIntWriteLoop x).length ≤ k := by
  induction k with
  | zero => omega
  | succ k ih =>
    intro x _ hx
    rw [varIntWriteLoop_eq]
    by_cases h7 : x >>> 7 = 0
    · simp [h7]
    · have hk : 1 ≤ k := by
        by_contra hk0
        have hk0 : k = 0 := by omega
        subst hk0
        rw [shiftRight7_eq] at h7
        norm_num at hx
        omega
      simp only [if_neg h7, List.length_cons]
      have hlen : (varIntWriteLoop (x >>> 7)).length ≤ k := by
        apply ih _ hk
        rw [shiftRight7_eq]
        apply Nat.div_lt_of_lt_mul
        have h1 : 7 * (k + 1) = 7 * k + 7 := by ring
        have h2 : 2 ^ (7 * (k + 1)) = 2 ^ (7 * k) * 128 := by rw [h1, pow_add]; norm_num
        omega
      omega

theorem toU32_lt (v : Int) : toU32 v < 2 ^ 32 := by
  unfold toU32
  omega

theorem toI32_toU32 (v : Int) (h1 : -2 ^ 31 ≤ v) (h2 : v < 2 ^ 31) :
    toI32 (toU32 v) = v := by
  unfold toI32 toU32
  split <;> omega

/-- C6: for every i32 value `v`, reading the bytes produced by `VarInt::write(v)`
with `VarInt::read` yields `v` again, `VarInt::prot_size(v)` equals the exact
number of bytes `VarInt::write(v)` produces, and that number is at most 5. -/
theorem C6_varint_roundtrip (v : Int) (h1 : -2 ^ 31 ≤ v) (h2 : v < 2 ^ 31) :
    VarInt.read (VarInt.write v) = some v ∧
    VarInt.prot_size v = (VarInt.write v).length ∧
    (VarInt.write v).length ≤ 5 := by
  refine ⟨?_, protSizeLoop_eq_length _, ?_⟩
  · unfold VarInt.read VarInt.write
    rw [varIntReadLoop_writeLoop (toU32 v) 0 0 (by norm_num) (by simpa using toU32_lt v) (by norm_num)]
    simp [toI32_toU32 v h1 h2]
  · exact writeLoop_length_le 5 (toU32 v) (by norm_num)
      (lt_of_lt_of_le (toU32_lt v) (by norm_num))

/-- Witness for C6 at `v = -1`. -/
theorem C6_varint_roundtrip_witness :
    (-2 ^ 31 : Int) ≤ -1 ∧ (-1 : Int) < 2 ^ 31 ∧
    (VarInt.read (VarInt.write (-1)) = some (-1) ∧
      VarInt.prot_size (-1) = (VarInt.write (-1)).length ∧
      (VarInt.write (-1)).length ≤ 5) :=
  ⟨by norm_num, by norm_num, C6_varint_roundtrip (-1) (by norm_num) (by norm_num)⟩

theorem shiftLeft8_lor_byte (a b : Nat) (hb : b < 256) : a <<< 8 ||| b = 256 * a + b := by
  have hb' : b < 2 ^ 8 := by
    have h8 : (2 : Nat) ^ 8 = 256 := by norm_num
    omega
  have h := Nat.mul_add_lt_is_or hb' a
  rw [Nat.shiftLeft_eq, Nat.mul_comm a (2 ^ 8), ← h]

theorem readU64be_u64tou8abe (w : Nat) (hw : w < 2 ^ 64) :
    readU64be (u64tou8abe w) = some w := by
  simp only [readU64be, u64tou8abe]
  rw [shiftLeft8_lor_byte _ _ (Nat.mod_lt _ (by norm_num)),
    shiftLeft8_lor_byte _ _ (Nat.mod_lt _ (by norm_num)),
    shiftLeft8_lor_byte _ _ (Nat.mod_lt _ (by norm_num)),
    shiftLeft8_lor_byte _ _ (Nat.mod_lt _ (by norm_num)),
    shiftLeft8_lor_byte _ _ (Nat.mod_lt _ (by norm_num)),
    shiftLeft8_lor_byte _ _ (Nat.mod_lt _ (by norm_num)),
    shiftLeft8_lor_byte _ _ (Nat.mod_lt _ (by norm_num))]
  simp only [Nat.shiftRight_eq_div_pow]
  norm_num
  omega

theorem lor_triple (a b c : Nat) (hb : b < 2 ^ 26) (hc : c < 2 ^ 12) :
    a <<< 38 ||| b <<< 12 ||| c = a * 2 ^ 38 + b * 2 ^ 12 + c := by
  have e1 : a <<< 38 = a * 2 ^ 38 := Nat.shiftLeft_eq a 38
  have e2 : b <<< 12 = b * 2 ^ 12 := Nat.shiftLeft_eq b 12
  have hb' : b * 2 ^ 12 < 2 ^ 38 := by omega
  have h1 : 2 ^ 38 * a + b * 2 ^ 12 = 2 ^ 38 * a ||| b * 2 ^ 12 :=
    Nat.mul_add_lt_is_or hb' a
  have h2 : 2 ^ 12 * (2 ^ 26 * a + b) + c = 2 ^ 12 * (2 ^ 26 * a + b) ||| c :=
    Nat.mul_add_lt_is_or hc (2 ^ 26 * a + b)
  have hcomm : a * 2 ^ 38 = 2 ^ 38 * a := Nat.mul_comm _ _
  have hfac : 2 ^ 38 * a + b * 2 ^ 12 = 2 ^ 12 * (2 ^ 26 * a + b) := by ring
  rw [e1, e2, hcomm, ← h1, hfac, ← h2]

theorem positionWord_arith (p : Position) :
    positionWord p =
      (p.x % 2 ^ 26).toNat * 2 ^ 38 + (p.z % 2 ^ 26).toNat * 2 ^ 12 +
        (p.y % 2 ^ 12).toNat :=
  lor_triple _ _ _ (by omega) (by omega)

/-- C7: for every `x` and `z` in the signed 26-bit range and `y` in the signed
12-bit range, decoding the 64-bit word produced by `Position::write` with
`Position::read`'s sign-extending shifts recovers exactly `(x, y, z)`. -/
theorem C7_position_roundtrip (x y z : Int)
    (hx1 : -2 ^ 25 ≤ x) (hx2 : x < 2 ^ 25)
    (hz1 : -2 ^ 25 ≤ z) (hz2 : z < 2 ^ 25)
    (hy1 : -2 ^ 11 ≤ y) (hy2 : y < 2 ^ 11) :
    Position.read (Position.write (Position.new x y z)) = some (Position.new x y z) := by
  have h := positionWord_arith (Position.new x y z)
  simp only [Position.new] at h ⊢
  have hwlt : positionWord { x := x, z := z, y := y } < 2 ^ 64 := by
    rw [h]
    omega
  unfold Position.write Position.read
  rw [readU64be_u64tou8abe _ hwlt]
  simp only [Option.map_some', Option.some.injEq, Position.mk.injEq]
  rw [h]
  refine ⟨?_, ?_, ?_⟩ <;> simp only [toI64, wrap64, wrap32] <;> split_ifs <;> omega

/-- C1 (code bug): at the global position `(-16, 0, 0)` the code returns
section x-coordinate `-2`, while floored division — the behaviour the
specification prescribes — gives `⌊-16/16⌋ = -1`. -/
theorem C1_chunk_pos_not_floored :
    World.chunk_pos_for_global_pos (Position.new (-16) 0 0) = Position.new (-2) 0 0 ∧
    Int.fdiv (-16) 16 = -1 ∧ ((-2 : Int) ≠ -1) := by
  refine ⟨?_, by decide, by decide⟩
  decide

/-- C8: a Handshake packet with `next_state = 1` sets the connection state to
Status and with `next_state = 2` to Login, each returning no outbound
packets; any other `next_state` yields the `InvalidNextState` error and
leaves the state at Handshake. -/
theorem C8_handshake_transitions :
    handshakeHandle 1 ConnectionState.handshake = (ConnectionState.status, Except.ok []) ∧
    handshakeHandle 2 ConnectionState.handshake = (ConnectionState.login, Except.ok []) ∧
    ∀ n : Int, n ≠ 1 → n ≠ 2 →
      handshakeHandle n ConnectionState.handshake =
        (ConnectionState.handshake, Except.error (ProtError.invalidNextState n)) := by
  refine ⟨rfl, rfl, fun n h1 h2 => ?_⟩
  simp [handshakeHandle, h1, h2]

/-- Witness for C8 at `next_state = 3`. -/
theorem C8_handshake_transitions_witness :
    (3 : Int) ≠ 1 ∧ (3 : Int) ≠ 2 ∧
    handshakeHandle 3 ConnectionState.handshake =
      (ConnectionState.handshake, Except.error (ProtError.invalidNextState 3)) :=
  ⟨by decide, by decide, C8_handshake_transitions.2.2 3 (by decide) (by decide)⟩

theorem natToHexGo_congr (n : Nat) : ∀ f g acc, n ≤ f → n ≤ g →
    natToHexGo f n acc = natToHexGo g n acc := by
  induction n using Nat.strong_induction_on with
  | _ n ih =>
    intro f g acc hf hg
    by_cases h16 : n < 16
    · cases f <;> cases g <;> simp [natToHexGo, h16]
    · obtain ⟨f', rfl⟩ : ∃ f', f = f' + 1 := ⟨f - 1, by omega⟩
      obtain ⟨g', rfl⟩ : ∃ g', g = g' + 1 := ⟨g - 1, by omega⟩
      simp only [natToHexGo, if_neg h16]
      exact ih (n / 16) (by omega) f' g' _ (by omega) (by omega)

theorem natToHexAux_eq (n : Nat) (acc : List Char) : natToHexAux n acc =
    if n < 16 then hexChar n :: acc
    else natToHexAux (n / 16) (hexChar (n % 16) :: acc) := by
  by_cases h16 : n < 16
  · rw [if_pos h16]
    unfold natToHexAux
    cases n <;> simp [natToHexGo, h16]
  · rw [if_neg h16]
    obtain ⟨n', rfl⟩ : ∃ n', n = n' + 1 := ⟨n - 1, by omega⟩
    unfold natToHexAux
    show natToHexGo (n' + 1) (n' + 1) acc = _
    simp only [natToHexGo, if_neg h16]
    exact natToHexGo_congr ((n' + 1) / 16) n' ((n' + 1) / 16) _ (by omega) (le_refl _)

theorem natToHexAux_head (n : Nat) (hn : n ≠ 0) :
    ∀ acc, ∃ c l, natToHexAux n acc = c :: l ∧ ¬(c = '0') := by
  induction n using Nat.strong_induction_on with
  | _ n ih =>
    intro acc
    rw [natToHexAux_eq]
    by_cases h16 : n < 16
    · refine ⟨hexChar n, acc, by simp [h16], ?_⟩
      interval_cases n <;> simp_all <;> decide
    · rw [if_neg h16]
      exact ih (n / 16) (Nat.div_lt_self (by omega) (by norm_num)) (by omega) _

theorem dropWhile_natToHexAux (n : Nat) (hn : n ≠ 0) :
    (natToHexAux n []).dropWhile (fun c => c = '0') = natToHexAux n [] := by
  obtain ⟨c, l, hcl, hc⟩ := natToHexAux_head n hn []
  rw [hcl, List.dropWhile_cons]
  simp [hc]

theorem hexdigest_eq_spec (bs : List Nat) (h : fromSignedBytesBE bs ≠ 0) :
    hexdigest bs = hexdigestSpec bs := by
  unfold hexdigest hexdigestSpec natToHex
  by_cases hneg : fromSignedBytesBE bs < 0
  · rw [if_pos hneg, if_pos hneg]
    have habs : (-fromSignedBytesBE bs).toNat = (fromSignedBytesBE bs).natAbs := by omega
    rw [habs, dropWhile_natToHexAux _ (by omega)]
  · rw [if_neg hneg, if_neg hneg]
    have habs : (fromSignedBytesBE bs).toNat = (fromSignedBytesBE bs).natAbs := by omega
    rw [habs, dropWhile_natToHexAux _ (by omega)]

/-- C9: `hexdigest` formats a digest by interpreting it as a big-endian
two's-complement signed integer and emitting its lowercase hex
representation with leading zeros stripped and a `'-'` prefix when the
integer is negative (the §6.2 formula, for every nonzero digest); applied
to the SHA-1 digests of "Notch", "jeb_" and "simon" it yields exactly the
three listed vectors (positive, negative, and leading-zero-stripped). -/
theorem C9_hexdigest_vectors :
    (∀ bs : List Nat, fromSignedBytesBE bs ≠ 0 → hexdigest bs = hexdigestSpec bs) ∧
    hexdigest (sha1 (asciiBytes "Notch")) = "4ed1f46bbe04bc756bcb17c0c7ce3e4632f06a48" ∧
    hexdigest (sha1 (asciiBytes "jeb_")) = "-7c9d5b0044c130109a5d7b5fb5c317c02b4e28c1" ∧
    hexdigest (sha1 (asciiBytes "simon")) = "88e16a1019277b15d58faf0541e11910eb756f6" :=
  ⟨hexdigest_eq_spec, by decide, by decide, by decide⟩

/-- Witness for C9's universally quantified part at the two-byte digest
`[0xab, 0xcd]`, whose signed value `-21555` is nonzero. -/
theorem C9_hexdigest_vectors_witness :
    fromSignedBytesBE [171, 205] ≠ 0 ∧ hexdigest [171, 205] = hexdigestSpec [171, 205] :=
  ⟨by decide, C9_hexdigest_vectors.1 [171, 205] (by decide)⟩

theorem chunkVal_lt (B : Nat) : ∀ c : List Nat, (∀ d ∈ c, d < B) →
    chunkVal B c < B ^ c.length := by
  intro c
  induction c with
  | nil => intro _; simp [chunkVal]
  | cons d l ih =>
    intro hd
    have h1 : chunkVal B l < B ^ l.length := ih (fun x hx => hd x (by simp [hx]))
    have h2 : d < B := hd d (by simp)
    have h3 : B * (chunkVal B l + 1) ≤ B * B ^ l.length := Nat.mul_le_mul_left B h1
    simp only [chunkVal, List.length_cons]
    calc d + B * chunkVal B l < B + B * chunkVal B l := by omega
      _ = B * (chunkVal B l + 1) := by ring
      _ ≤ B * B ^ l.length := h3
      _ = B ^ (l.length + 1) := by rw [pow_succ]; ring

theorem chunkVal_append (B : Nat) : ∀ c1 c2 : List Nat,
    chunkVal B (c1 ++ c2) = chunkVal B c1 + B ^ c1.length * chunkVal B c2 := by
  intro c1
  induction c1 with
  | nil => intro c2; simp [chunkVal]
  | cons d l ih =>
    intro c2
    have h1 : (d :: l) ++ c2 = d :: (l ++ c2) := rfl
    rw [h1]
    show d + B * chunkVal B (l ++ c2) = chunkVal B (d :: l) + B ^ (d :: l).length * chunkVal B c2
    rw [ih c2]
    simp only [chunkVal, List.length_cons, pow_succ]
    ring

theorem chunkVal_snoc (B : Nat) (c : List Nat) (v : Nat) :
    chunkVal B (c ++ [v]) = chunkVal B c + B ^ c.length * v := by
  rw [chunkVal_append]
  simp [chunkVal]

theorem chunkVal_dec (B : Nat) : ∀ (c : List Nat) (j : Nat), j < c.length →
    chunkVal B c = chunkVal B (c.take j) +
      B ^ j * (c.getD j 0 + B * chunkVal B (c.drop (j + 1))) := by
  intro c
  induction c with
  | nil => intro j hj; simp at hj
  | cons d l ih =>
    intro j hj
    cases j with
    | zero => simp [chunkVal]
    | succ j =>
      have hj' : j < l.length := by simpa using hj
      simp only [List.take_succ_cons, List.drop_succ_cons, List.getD_cons_succ, chunkVal]
      rw [ih j hj']
      rw [pow_succ]
      ring

theorem chunkVal_set_dec (B : Nat) : ∀ (c : List Nat) (j v : Nat), j < c.length →
    chunkVal B (c.set j v) = chunkVal B (c.take j) +
      B ^ j * (v + B * chunkVal B (c.drop (j + 1))) := by
  intro c
  induction c with
  | nil => intro j v hj; simp at hj
  | cons d l ih =>
    intro j v hj
    cases j with
    | zero => simp [chunkVal]
    | succ j =>
      have hj' : j < l.length := by simpa using hj
      simp only [List.set_cons_succ, List.take_succ_cons, List.drop_succ_cons, chunkVal]
      rw [ih j v hj']
      rw [pow_succ]
      ring

theorem getD_take {α : Type} (l : List α) (n k : Nat) (d : α) :
    (l.take n).getD k d = if k < n then l.getD k d else d := by
  simp only [List.getD_eq_getElem?_getD, List.getElem?_take]
  split <;> simp

theorem getD_drop {α : Type} (l : List α) (n k : Nat) (d : α) :
    (l.drop n).getD k d = l.getD (n + k) d := by
  simp only [List.getD_eq_getElem?_getD, List.getElem?_drop]

theorem getD_map {α β : Type} (f : α → β) (l : List α) (k : Nat) (d : α) :
    (l.map f).getD k (f d) = f (l.getD k d) := by
  simp only [List.getD_eq_getElem?_getD, List.getElem?_map]
  cases l[k]? <;> simp

theorem getD_set {α : Type} (l : List α) (i k : Nat) (v : α) (d : α) :
    (l.set i v).getD k d = if i = k ∧ i < l.length then v else l.getD k d := by
  simp only [List.getD_eq_getElem?_getD, List.getElem?_set]
  by_cases h1 : i = k
  · subst h1
    by_cases h2 : i < l.length
    · simp [h2]
    · simp [h2, List.getElem?_eq_none (Nat.le_of_not_lt h2)]
  · simp [h1, fun h : i = k ∧ i < l.length => h1 h.1]

theorem eq_of_getD {α : Type} (d : α) (l1 l2 : List α) (hlen : l1.length = l2.length)
    (h : ∀ k, l1.getD k d = l2.getD k d) : l1 = l2 := by
  apply List.ext_getElem hlen
  intro k h1 h2
  have := h k
  simp only [List.getD_eq_getElem?_getD, List.getElem?_eq_getElem h1,
    List.getElem?_eq_getElem h2] at this
  simpa using this

theorem chunksOf_cons_eq (m : Nat) (l : List Nat) (hl : l ≠ []) :
    chunksOf m l = l.take (m + 1) :: chunksOf m (l.drop (m + 1)) := by
  match l with
  | [] => exact absurd rfl hl
  | v :: rest => rw [chunksOf]

theorem chunksOf_getD_bounded (m : Nat) : ∀ (n : Nat) (l : List Nat), l.length ≤ n →
    ∀ k : Nat, (chunksOf m l).getD k [] = (l.drop (k * (m + 1))).take (m + 1) := by
  intro n
  induction n with
  | zero =>
    intro l hl k
    match l with
    | [] => simp [chunksOf]
  | succ n ih =>
    intro l hl k
    match l with
    | [] => simp [chunksOf]
    | v :: rest =>
      rw [chunksOf]
      cases k with
      | zero => simp
      | succ k =>
        simp only [List.getD_cons_succ]
        have hlen : ((v :: rest).drop (m + 1)).length ≤ n := by
          simp only [List.length_drop, List.length_cons]
          simp only [List.length_cons] at hl
          omega
        rw [ih _ hlen k, List.drop_drop]
        congr 2
        ring

theorem chunksOf_getD (m : Nat) (l : List Nat) (k : Nat) :
    (chunksOf m l).getD k [] = (l.drop (k * (m + 1))).take (m + 1) :=
  chunksOf_getD_bounded m l.length l (le_refl _) k

theorem chunksOf_length_bounded (m : Nat) : ∀ (n : Nat) (l : List Nat), l.length ≤ n →
    (chunksOf m l).length = (l.length + m) / (m + 1) := by
  intro n
  induction n with
  | zero =>
    intro l hl
    match l with
    | [] => simpa [chunksOf] using (Nat.div_eq_of_lt (by omega)).symm
  | succ n ih =>
    intro l hl
    match l with
    | [] => simpa [chunksOf] using (Nat.div_eq_of_lt (by omega)).symm
    | v :: rest =>
      rw [chunksOf]
      simp only [List.length_cons]
      have hlen : ((v :: rest).drop (m + 1)).length ≤ n := by
        simp only [List.length_drop, List.length_cons]
        simp only [List.length_cons] at hl
        omega
      rw [ih _ hlen]
      simp only [List.length_drop, List.length_cons]
      by_cases hbig : m + 1 ≤ rest.length + 1
      · have h1 : rest.length + 1 - (m + 1) + m + (m + 1) = rest.length + 1 + m := by omega
        rw [← h1, Nat.add_div_right _ (by omega)]
      · have h1 : rest.length + 1 - (m + 1) = 0 := by omega
        rw [h1]
        rw [Nat.div_eq_of_lt (by omega)]
        have h2 : (rest.length + 1 + m) / (m + 1) = 1 := by
          apply Nat.div_eq_of_lt_le
          · omega
          · omega
        omega

theorem chunksOf_length (m : Nat) (l : List Nat) :
    (chunksOf m l).length = (l.length + m) / (m + 1) :=
  chunksOf_length_bounded m l.length l (le_refl _)

theorem flush_iff (b k : Nat) (hb1 : 1 ≤ b) (hb64 : b ≤ 64) :
    b * k + b > 64 - b ↔ k + 1 ≥ 64 / b := by
  have hdm := Nat.div_add_mod 64 b
  have hr : 64 % b < b := Nat.mod_lt _ (by omega)
  have hd1 : b * (k + 2) = b * k + 2 * b := by ring
  have hd2 : b * (64 / b + 1) = b * (64 / b) + b := by ring
  constructor
  · intro h
    by_contra hc
    push_neg at hc
    have h2 : b * (k + 2) ≤ b * (64 / b) := Nat.mul_le_mul_left b (by omega)
    omega
  · intro h
    have h2 : b * (64 / b + 1) ≤ b * (k + 2) := Nat.mul_le_mul_left b (by omega)
    omega

theorem foldl_step_extend (b : Nat) : ∀ (vs : List Nat) (bits : List Nat) (cur off len : Nat),
    vs.foldl (fromIterStep b) (bits, cur, off, len) =
      ((bits ++ (vs.foldl (fromIterStep b) ([], cur, off, 0)).1,
        (vs.foldl (fromIterStep b) ([], cur, off, 0)).2.1,
        (vs.foldl (fromIterStep b) ([], cur, off, 0)).2.2.1,
        len + (vs.foldl (fromIterStep b) ([], cur, off, 0)).2.2.2)) := by
  intro vs
  induction vs with
  | nil => intro bits cur off len; simp
  | cons v vs ih =>
    intro bits cur off len
    simp only [List.foldl_cons]
    by_cases hflush : off + b > 64 - b
    · have hstep : ∀ bs ln, fromIterStep b (bs, cur, off, ln) v =
          (bs ++ [cur ||| (v <<< off)], 0, 0, ln + 1) := by
        intro bs ln
        simp [fromIterStep, hflush]
      rw [hstep bits len, hstep [] 0]
      simp only [List.nil_append, Nat.zero_add]
      rw [ih (bits ++ [cur ||| (v <<< off)]) 0 0 (len + 1), ih [cur ||| (v <<< off)] 0 0 1]
      simp [List.append_assoc]
      all_goals omega
    · have hstep : ∀ bs ln, fromIterStep b (bs, cur, off, ln) v =
          (bs, cur ||| (v <<< off), off + b, ln + 1) := by
        intro bs ln
        simp [fromIterStep, hflush]
      rw [hstep bits len, hstep [] 0]
      simp only [List.nil_append, Nat.zero_add]
      rw [ih bits (cur ||| (v <<< off)) (off + b) (len + 1),
        ih [] (cur ||| (v <<< off)) (off + b) 1]
      simp [List.append_assoc]
      all_goals omega

theorem foldl_run (b : Nat) (hb1 : 1 ≤ b) (hb64 : b ≤ 64) :
    ∀ (p cpart bits : List Nat) (len : Nat),
    cpart.length + p.length < 64 / b → (∀ v ∈ cpart, v < 2 ^ b) → (∀ v ∈ p, v < 2 ^ b) →
    p.foldl (fromIterStep b) (bits, chunkVal (2 ^ b) cpart, b * cpart.length, len)
      = (bits, chunkVal (2 ^ b) (cpart ++ p), b * (cpart.length + p.length), len + p.length) := by
  intro p
  induction p with
  | nil =>
    intro cpart bits len hlen hcp hp
    simp
  | cons v p ih =>
    intro cpart bits len hlen hcp hp
    simp only [List.foldl_cons]
    have hv : v < 2 ^ b := hp v (by simp)
    have hcv : chunkVal (2 ^ b) cpart < 2 ^ (b * cpart.length) := by
      have h1 := chunkVal_lt (2 ^ b) cpart hcp
      have h2 : ((2 : Nat) ^ b) ^ cpart.length = 2 ^ (b * cpart.length) := by
        rw [← pow_mul]
      omega
    have hshl : v <<< (b * cpart.length) = v * 2 ^ (b * cpart.length) :=
      Nat.shiftLeft_eq v _
    have hlor : chunkVal (2 ^ b) cpart ||| (v <<< (b * cpart.length)) =
        chunkVal (2 ^ b) (cpart ++ [v]) := by
      rw [hshl, lor_small_eq_add v _ hcv, chunkVal_snoc]
      have h2 : ((2 : Nat) ^ b) ^ cpart.length = 2 ^ (b * cpart.length) := by
        rw [← pow_mul]
      rw [h2]
      ring
    have hnoflush : ¬(b * cpart.length + b > 64 - b) := by
      rw [flush_iff b cpart.length hb1 hb64]
      simp only [List.length_cons] at hlen
      omega
    have hstep : fromIterStep b (bits, chunkVal (2 ^ b) cpart, b * cpart.length, len) v =
        (bits, chunkVal (2 ^ b) (cpart ++ [v]), b * (cpart.length + 1), len + 1) := by
      simp only [fromIterStep, hlor]
      rw [if_neg (by omega : ¬ b * cpart.length + b > 64 - b)]
      have : b * cpart.length + b = b * (cpart.length + 1) := by ring
      rw [this]
    rw [hstep]
    have hlen2 : (cpart ++ [v]).length + p.length < 64 / b := by
      simp only [List.length_append, List.length_cons, List.length_nil] at hlen ⊢
      omega
    have hcp2 : ∀ x ∈ cpart ++ [v], x < 2 ^ b := by
      intro x hx
      rcases List.mem_append.mp hx with h | h
      · exact hcp x h
      · simp at h
        subst h
        exact hv
    have hp2 : ∀ x ∈ p, x < 2 ^ b := fun x hx => hp x (by simp [hx])
    have hcl : (cpart ++ [v]).length = cpart.length + 1 := by simp
    rw [← hcl]
    rw [ih (cpart ++ [v]) bits (len + 1) hlen2 hcp2 hp2]
    have he : (cpart ++ [v]) ++ p = cpart ++ (v :: p) := by simp
    rw [he, hcl]
    have h3 : cpart.length + 1 + p.length = cpart.length + (v :: p).length := by
      simp only [List.length_cons]
      omega
    have h4 : len + 1 + p.length = len + (v :: p).length := by
      simp only [List.length_cons]
      omega
    rw [h3, h4]

theorem foldl_full_chunk (b : Nat) (hb1 : 1 ≤ b) (hb64 : b ≤ 64) (c bits : List Nat) (len : Nat)
    (hc : c.length = 64 / b) (hdig : ∀ v ∈ c, v < 2 ^ b) :
    c.foldl (fromIterStep b) (bits, 0, 0, len)
      = (bits ++ [chunkVal (2 ^ b) c], 0, 0, len + 64 / b) := by
  have hvpw : 1 ≤ 64 / b := Nat.one_le_div_iff (by omega) |>.mpr hb64
  have hne : c ≠ [] := by
    intro h
    rw [h] at hc
    simp at hc
    omega
  have hsplit := List.dropLast_concat_getLast hne
  have hdl : c.dropLast.length = 64 / b - 1 := by
    rw [List.length_dropLast, hc]
  conv_lhs => rw [← hsplit]
  rw [List.foldl_append]
  have hrun := foldl_run b hb1 hb64 c.dropLast [] bits len
    (by rw [hdl]; simp; omega)
    (by intro x hx; exact absurd hx (List.not_mem_nil x))
    (fun x hx => hdig x (List.dropLast_sublist c |>.mem hx))
  simp only [chunkVal, List.nil_append, Nat.mul_zero, List.length_nil, Nat.zero_add] at hrun
  rw [hrun]
  simp only [List.foldl_cons, List.foldl_nil]
  have hlast : c.getLast hne ∈ c := List.getLast_mem hne
  have hvlast : c.getLast hne < 2 ^ b := hdig _ hlast
  have hcv : chunkVal (2 ^ b) c.dropLast < 2 ^ (b * c.dropLast.length) := by
    have h1 := chunkVal_lt (2 ^ b) c.dropLast
      (fun x hx => hdig x (List.dropLast_sublist c |>.mem hx))
    have h2 : ((2 : Nat) ^ b) ^ c.dropLast.length = 2 ^ (b * c.dropLast.length) := by
      rw [← pow_mul]
    omega
  have hlor : chunkVal (2 ^ b) c.dropLast ||| (c.getLast hne <<< (b * c.dropLast.length)) =
      chunkVal (2 ^ b) c := by
    rw [Nat.shiftLeft_eq, lor_small_eq_add _ _ hcv]
    conv_rhs => rw [← hsplit]
    rw [chunkVal_snoc]
    have h2 : ((2 : Nat) ^ b) ^ c.dropLast.length = 2 ^ (b * c.dropLast.length) := by
      rw [← pow_mul]
    rw [h2]
    ring
  have hflush : b * c.dropLast.length + b > 64 - b := by
    rw [flush_iff b c.dropLast.length hb1 hb64, hdl]
    omega
  simp only [fromIterStep, hlor]
  rw [if_pos (by omega : b * c.dropLast.length + b > 64 - b)]
  rw [hdl]
  have : len + (64 / b - 1) + 1 = len + 64 / b := by omega
  rw [this]

theorem from_iter_spec (b : Nat) (hb1 : 1 ≤ b) (hb64 : b ≤ 64) : ∀ (n : Nat) (vs : List Nat),
    vs.length ≤ n → (∀ v ∈ vs, v < 2 ^ b) →
    PackedArray.from_iter vs b =
      ⟨vs.length, b, (chunksOf (64 / b - 1) vs).map (chunkVal (2 ^ b))⟩ := by
  have hvpw : 1 ≤ 64 / b := Nat.one_le_div_iff (by omega) |>.mpr hb64
  have hm1 : 64 / b - 1 + 1 = 64 / b := by omega
  intro n
  induction n with
  | zero =>
    intro vs hn hdig
    match vs with
    | [] => simp [PackedArray.from_iter, chunksOf]
  | succ n ih =>
    intro vs hn hdig
    match vs with
    | [] => simp [PackedArray.from_iter, chunksOf]
    | v :: rest =>
      by_cases hsmall : (v :: rest).length < 64 / b
      · have hrun := foldl_run b hb1 hb64 (v :: rest) [] [] 0
          (by simpa using hsmall)
          (by intro x hx; exact absurd hx (List.not_mem_nil x))
          hdig
        simp only [chunkVal, List.nil_append, Nat.mul_zero, List.length_nil, Nat.zero_add] at hrun
        simp only [PackedArray.from_iter, hrun]
        have hoff : b * (v :: rest).length ≠ 0 := by
          have : (v :: rest).length ≠ 0 := by simp
          positivity
        simp only [hoff, ne_eq, not_false_eq_true, if_true, ite_true]
        rw [chunksOf_cons_eq _ _ (by simp), hm1]
        rw [List.take_of_length_le (by omega), List.drop_eq_nil_of_le (by omega)]
        simp [chunksOf, chunkVal]
      · push_neg at hsmall
        have hvs : v :: rest = (v :: rest).take (64 / b) ++ (v :: rest).drop (64 / b) :=
          (List.take_append_drop _ _).symm
        have hctake : ((v :: rest).take (64 / b)).length = 64 / b := by
          rw [List.length_take]
          omega
        have hcdig : ∀ x ∈ (v :: rest).take (64 / b), x < 2 ^ b :=
          fun x hx => hdig x (List.take_subset _ _ hx)
        have hrdig : ∀ x ∈ (v :: rest).drop (64 / b), x < 2 ^ b :=
          fun x hx => hdig x (List.drop_subset _ _ hx)
        have hrlen : ((v :: rest).drop (64 / b)).length ≤ n := by
          simp only [List.length_drop, List.length_cons]
          simp only [List.length_cons] at hn
          omega
        have hih := ih ((v :: rest).drop (64 / b)) hrlen hrdig
        simp only [PackedArray.from_iter] at hih ⊢
        conv_lhs => rw [hvs]
        rw [List.foldl_append]
        rw [foldl_full_chunk b hb1 hb64 _ [] 0 hctake hcdig]
        rw [foldl_step_extend b ((v :: rest).drop (64 / b))
          ([] ++ [chunkVal (2 ^ b) ((v :: rest).take (64 / b))]) 0 0 (0 + 64 / b)]
        generalize hgen : ((v :: rest).drop (64 / b)).foldl (fromIterStep b) ([], 0, 0, 0) = r
          at hih ⊢
        obtain ⟨rb, rc, ro, rl⟩ := r
        simp only [PackedArray.mk.injEq] at hih
        obtain ⟨hlen, hbb, hbits⟩ := hih
        rw [chunksOf_cons_eq _ (v :: rest) (by simp), hm1]
        simp only [List.map_cons, PackedArray.mk.injEq, List.nil_append]
        refine ⟨?_, by trivial, ?_⟩
        · simp only [List.length_drop, List.length_cons] at hlen ⊢
          simp only [List.length_cons] at hsmall
          omega
        · by_cases hoff : ro ≠ 0
          · rw [if_pos hoff] at hbits
            rw [if_pos hoff]
            rw [List.append_assoc, hbits]
            simp
          · rw [if_neg hoff] at hbits
            rw [if_neg hoff]
            rw [hbits]
            simp

theorem getBits_extract (b s lo d hi : Nat) (hlo : lo < 2 ^ s) (hd : d < 2 ^ b) :
    ((lo + 2 ^ s * (d + 2 ^ b * hi)) >>> s) &&& (2 ^ b - 1) = d := by
  have e1 : (lo + 2 ^ s * (d + 2 ^ b * hi)) >>> s = (lo + 2 ^ s * (d + 2 ^ b * hi)) / 2 ^ s :=
    Nat.shiftRight_eq_div_pow _ s
  have e2 : ∀ x : Nat, x &&& (2 ^ b - 1) = x % 2 ^ b := fun x =>
    Nat.and_pow_two_sub_one_eq_mod x b
  rw [e1, e2]
  rw [Nat.add_mul_div_left _ _ (Nat.pos_pow_of_pos s (by norm_num))]
  rw [Nat.div_eq_of_lt hlo]
  rw [Nat.zero_add]
  rw [Nat.add_mul_mod_self_left]
  exact Nat.mod_eq_of_lt hd

theorem setBits_surgery (b s lo d hi v : Nat) (hlo : lo < 2 ^ s) (hd : d < 2 ^ b)
    (hv : v < 2 ^ b) (hsb : s + b ≤ 64) (hhi : hi < 2 ^ (64 - (s + b))) :
    ((lo + 2 ^ s * (d + 2 ^ b * hi)) &&& (2 ^ 64 - 1 - ((2 ^ b - 1) <<< s))) ||| (v <<< s)
      = lo + 2 ^ s * (v + 2 ^ b * hi) := by
  have hw : ∀ u : Nat, lo + 2 ^ s * (u + 2 ^ b * hi) = 2 ^ (s + b) * hi + (2 ^ s * u + lo) := by
    intro u
    rw [pow_add]
    ring
  have hsum : ∀ u : Nat, u < 2 ^ b → 2 ^ s * u + lo < 2 ^ (s + b) := by
    intro u hu
    calc 2 ^ s * u + lo < 2 ^ s * u + 2 ^ s := by omega
      _ = 2 ^ s * (u + 1) := by ring
      _ ≤ 2 ^ s * 2 ^ b := Nat.mul_le_mul_left _ (by omega)
      _ = 2 ^ (s + b) := (pow_add 2 s b).symm
  have hM : (2 ^ b - 1) <<< s = (2 ^ b - 1) * 2 ^ s := Nat.shiftLeft_eq _ s
  have hMlt : (2 ^ b - 1) * 2 ^ s < 2 ^ 64 := by
    calc (2 ^ b - 1) * 2 ^ s < 2 ^ b * 2 ^ s := by
          have hp : 0 < (2 : Nat) ^ s := Nat.pos_pow_of_pos s (by norm_num)
          have hq : 0 < (2 : Nat) ^ b := Nat.pos_pow_of_pos b (by norm_num)
          exact mul_lt_mul_of_pos_right (by omega) hp
      _ = 2 ^ (s + b) := by rw [pow_add]; ring
      _ ≤ 2 ^ 64 := Nat.pow_le_pow_right (by norm_num) hsb
  have hcompEq : 2 ^ 64 - 1 - ((2 ^ b - 1) <<< s) = 2 ^ 64 - ((2 ^ b - 1) * 2 ^ s + 1) := by
    rw [hM]
    omega
  rw [hw d, hw v, hcompEq]
  apply Nat.eq_of_testBit_eq
  intro i
  rw [Nat.testBit_or, Nat.testBit_and]
  rw [Nat.testBit_mul_pow_two_add hi (hsum d hd) i]
  rw [Nat.testBit_mul_pow_two_add hi (hsum v hv) i]
  rw [Nat.testBit_mul_pow_two_add d hlo i]
  rw [Nat.testBit_mul_pow_two_add v hlo i]
  rw [Nat.testBit_two_pow_sub_succ hMlt i]
  have hMbit : ((2 ^ b - 1) * 2 ^ s).testBit i = (decide (s ≤ i) && (2 ^ b - 1).testBit (i - s)) := by
    rw [← hM, Nat.testBit_shiftLeft]
  rw [hMbit, Nat.testBit_two_pow_sub_one, Nat.testBit_shiftLeft]
  by_cases h1 : i < s
  · have h2 : i < s + b := by omega
    have h3 : i < 64 := by omega
    have h4 : ¬s ≤ i := by omega
    simp [h1, h2, h3, h4]
  · by_cases h2 : i < s + b
    · have h3 : s ≤ i := by omega
      have h4 : i - s < b := by omega
      simp [h1, h2, h3, h4]
    · have h3 : s ≤ i := by omega
      have h4 : ¬(i - s < b) := by omega
      have hvb : v.testBit (i - s) = false :=
        Nat.testBit_lt_two_pow (lt_of_lt_of_le hv (Nat.pow_le_pow_right (by norm_num) (by omega)))
      by_cases h5 : i < 64
      · simp [h1, h2, h3, h4, h5, hvb]
      · have hhib : hi.testBit (i - (s + b)) = false :=
          Nat.testBit_lt_two_pow
            (lt_of_lt_of_le hhi (Nat.pow_le_pow_right (by norm_num) (by omega)))
        simp [h1, h2, h3, h4, h5, hvb, hhib]

/-! ## PackedArray operations on the `from_iter` normal form -/

theorem get_mk (L b : Nat) (ws : List Nat) (i : Nat) :
    PackedArray.get ⟨L, b, ws⟩ i =
      if i ≥ L then none
      else some ((ws.getD (i / (64 / b)) 0 >>> (i % (64 / b) * b)) &&& (2 ^ b - 1)) := rfl

theorem set_mk (L b : Nat) (ws : List Nat) (i v : Nat) :
    PackedArray.set ⟨L, b, ws⟩ i v =
      if i < L then
        if v ≤ 2 ^ b - 1 then
          some ⟨L, b, ws.set (i / (64 / b))
            ((ws.getD (i / (64 / b)) 0 &&&
                (2 ^ 64 - 1 - ((2 ^ b - 1) <<< (i % (64 / b) * b)))) |||
              (v <<< (i % (64 / b) * b)))⟩
        else none
      else none := rfl

theorem iter_mk (L b : Nat) (ws : List Nat) :
    PackedArray.iter ⟨L, b, ws⟩ =
      ((ws.map fun w =>
        (List.range (64 / b)).map fun i => (w >>> (i * b)) &&& (2 ^ b - 1)).flatten).take L := rfl

theorem new_mk (L b : Nat) :
    PackedArray.new L b = ⟨L, b, List.replicate ((L + 64 / b - 1) / (64 / b)) 0⟩ := rfl

theorem getD_mem {α : Type} (l : List α) (i : Nat) (d : α) (h : i < l.length) :
    l.getD i d ∈ l := by
  rw [List.getD_eq_getElem?_getD, List.getElem?_eq_getElem h]
  simp [List.getElem_mem]

theorem getD_range_map {α : Type} (f : Nat → α) (n k : Nat) (d : α) :
    ((List.range n).map f).getD k d = if k < n then f k else d := by
  by_cases hk : k < n
  · rw [List.getD_eq_getElem?_getD, List.getElem?_map, List.getElem?_range hk]
    simp [hk]
  · rw [List.getD_eq_default _ _ (by simp; omega), if_neg hk]

theorem getD_append_lt {α : Type} (l1 l2 : List α) (k : Nat) (d : α) (h : k < l1.length) :
    (l1 ++ l2).getD k d = l1.getD k d := by
  simp [List.getD_eq_getElem?_getD, List.getElem?_append, h]

theorem getD_append_ge {α : Type} (l1 l2 : List α) (k : Nat) (d : α) (h : l1.length ≤ k) :
    (l1 ++ l2).getD k d = l2.getD (k - l1.length) d := by
  simp [List.getD_eq_getElem?_getD, List.getElem?_append, Nat.not_lt_of_le h]

theorem getD_map_lt {α β : Type} (f : α → β) (l : List α) (k : Nat) (d : β) (d' : α)
    (h : k < l.length) : (l.map f).getD k d = f (l.getD k d') := by
  rw [List.getD_eq_getElem?_getD, List.getElem?_map, List.getElem?_eq_getElem h]
  rw [List.getD_eq_getElem?_getD, List.getElem?_eq_getElem h]
  simp

theorem chunk_getD (vpw k j : Nat) (l : List Nat) (hj : j < vpw) :
    ((l.drop (k * vpw)).take vpw).getD j 0 = l.getD (k * vpw + j) 0 := by
  rw [getD_take, if_pos hj, getD_drop]

theorem word_extract (b : Nat) (c : List Nat) (hdig : ∀ v ∈ c, v < 2 ^ b) (j : Nat)
    (hj : j < c.length) :
    (chunkVal (2 ^ b) c >>> (j * b)) &&& (2 ^ b - 1) = c.getD j 0 := by
  have hd : c.getD j 0 < 2 ^ b := hdig _ (getD_mem c j 0 hj)
  have h3 : ((2 : Nat) ^ b) ^ j = 2 ^ (j * b) := by rw [← pow_mul, Nat.mul_comm]
  have hlo : chunkVal (2 ^ b) (c.take j) < 2 ^ (j * b) := by
    have h1 := chunkVal_lt (2 ^ b) (c.take j) (fun x hx => hdig x (List.take_subset _ _ hx))
    have h2 : (c.take j).length = j := by rw [List.length_take]; omega
    rw [h2, h3] at h1
    exact h1
  rw [chunkVal_dec (2 ^ b) c j hj, h3]
  exact getBits_extract b (j * b) _ _ _ hlo hd

theorem words_getD (b : Nat) (hb1 : 1 ≤ b) (hb64 : b ≤ 64) (vs : List Nat) (k : Nat) :
    ((chunksOf (64 / b - 1) vs).map (chunkVal (2 ^ b))).getD k 0
      = chunkVal (2 ^ b) ((vs.drop (k * (64 / b))).take (64 / b)) := by
  have hvpw : 1 ≤ 64 / b := Nat.one_le_div_iff (by omega) |>.mpr hb64
  have hm1 : 64 / b - 1 + 1 = 64 / b := by omega
  have h0 : (0 : Nat) = chunkVal (2 ^ b) [] := rfl
  rw [h0, getD_map, chunksOf_getD, hm1]

theorem from_iter_get (b : Nat) (hb1 : 1 ≤ b) (hb64 : b ≤ 64) (vs : List Nat)
    (hdig : ∀ v ∈ vs, v < 2 ^ b) (i : Nat) (hi : i < vs.length) :
    (PackedArray.from_iter vs b).get i = some (vs.getD i 0) := by
  have hvpw : 1 ≤ 64 / b := Nat.one_le_div_iff (by omega) |>.mpr hb64
  rw [from_iter_spec b hb1 hb64 vs.length vs (le_refl _) hdig]
  rw [get_mk, if_neg (by omega)]
  rw [words_getD b hb1 hb64]
  have hdm : 64 / b * (i / (64 / b)) + i % (64 / b) = i := Nat.div_add_mod i (64 / b)
  have hcm : i / (64 / b) * (64 / b) = 64 / b * (i / (64 / b)) := Nat.mul_comm _ _
  have hjv : i % (64 / b) < 64 / b := Nat.mod_lt _ (by omega)
  have hj : i % (64 / b) < ((vs.drop (i / (64 / b) * (64 / b))).take (64 / b)).length := by
    rw [List.length_take, List.length_drop]
    omega
  rw [word_extract b _ (fun x hx => hdig x (List.drop_subset _ _ (List.take_subset _ _ hx))) _ hj]
  rw [chunk_getD _ _ _ _ hjv]
  have hidx : i / (64 / b) * (64 / b) + i % (64 / b) = i := by omega
  rw [hidx]

theorem from_iter_fields (b : Nat) (hb1 : 1 ≤ b) (hb64 : b ≤ 64) (vs : List Nat)
    (hdig : ∀ v ∈ vs, v < 2 ^ b) :
    (PackedArray.from_iter vs b).length = vs.length ∧
      (PackedArray.from_iter vs b).bits_per_value = b := by
  rw [from_iter_spec b hb1 hb64 vs.length vs (le_refl _) hdig]
  exact ⟨rfl, rfl⟩

theorem chunk_set_eq (vpw i v : Nat) (vs : List Nat) (hvpw : 1 ≤ vpw) (hi : i < vs.length) :
    ((vs.set i v).drop (i / vpw * vpw)).take vpw
      = ((vs.drop (i / vpw * vpw)).take vpw).set (i % vpw) v := by
  have hdm : vpw * (i / vpw) + i % vpw = i := Nat.div_add_mod i vpw
  have hcm : i / vpw * vpw = vpw * (i / vpw) := Nat.mul_comm _ _
  have hjv : i % vpw < vpw := Nat.mod_lt _ (by omega)
  have hlen : i % vpw < ((vs.drop (i / vpw * vpw)).take vpw).length := by
    rw [List.length_take, List.length_drop]
    omega
  apply eq_of_getD 0
  · rw [List.length_take, List.length_drop, List.length_set, List.length_set,
      List.length_take, List.length_drop]
  · intro j
    by_cases hj : j < vpw
    · rw [chunk_getD _ _ _ _ hj, getD_set, getD_set, chunk_getD _ _ _ _ hj]
      by_cases hcase : i % vpw = j
      · rw [if_pos ⟨by omega, hi⟩, if_pos ⟨hcase, hlen⟩]
      · rw [if_neg (fun h => hcase (by omega : i % vpw = j)),
          if_neg (fun h => hcase h.1)]
    · rw [List.getD_eq_default _ _ (by rw [List.length_take]; omega),
        List.getD_eq_default _ _ (by rw [List.length_set, List.length_take]; omega)]

theorem chunk_set_ne (vpw i v k' : Nat) (vs : List Nat) (hvpw : 1 ≤ vpw)
    (hk' : k' ≠ i / vpw) :
    ((vs.set i v).drop (k' * vpw)).take vpw = (vs.drop (k' * vpw)).take vpw := by
  apply eq_of_getD 0
  · rw [List.length_take, List.length_drop, List.length_set, List.length_take,
      List.length_drop]
  · intro j
    by_cases hj : j < vpw
    · rw [chunk_getD _ _ _ _ hj, chunk_getD _ _ _ _ hj]
      have hne : ¬(i = k' * vpw + j ∧ i < vs.length) := by
        rintro ⟨h1, _⟩
        have h4 : vpw * k' + j = i := by rw [h1]; ring
        have h2 : (vpw * k' + j) / vpw = k' + j / vpw := Nat.mul_add_div (by omega) k' j
        have h3 : j / vpw = 0 := Nat.div_eq_of_lt hj
        have h5 : i / vpw = k' := by rw [← h4, h2, h3]; omega
        exact hk' h5.symm
      rw [getD_set, if_neg hne]
    · rw [List.getD_eq_default _ _ (by rw [List.length_take]; omega),
        List.getD_eq_default _ _ (by rw [List.length_take]; omega)]

theorem from_iter_set (b : Nat) (hb1 : 1 ≤ b) (hb64 : b ≤ 64) (vs : List Nat)
    (hdig : ∀ v ∈ vs, v < 2 ^ b) (i v : Nat) (hi : i < vs.length) (hv : v < 2 ^ b) :
    (PackedArray.from_iter vs b).set i v = some (PackedArray.from_iter (vs.set i v) b) := by
  have hvpw : 1 ≤ 64 / b := Nat.one_le_div_iff (by omega) |>.mpr hb64
  have hbvpw : 64 / b * b ≤ 64 := Nat.div_mul_le_self 64 b
  have hm1 : 64 / b - 1 + 1 = 64 / b := by omega
  have hdig2 : ∀ x ∈ vs.set i v, x < 2 ^ b := by
    intro x hx
    rcases List.mem_or_eq_of_mem_set hx with h | h
    · exact hdig x h
    · subst h; exact hv
  rw [from_iter_spec b hb1 hb64 vs.length vs (le_refl _) hdig,
    from_iter_spec b hb1 hb64 (vs.set i v).length _ (le_refl _) hdig2]
  rw [set_mk, if_pos hi, if_pos (by omega)]
  congr 1
  simp only [List.length_set, PackedArray.mk.injEq, true_and]
  apply eq_of_getD 0
  · rw [List.length_set, List.length_map, List.length_map, chunksOf_length, chunksOf_length,
      List.length_set]
  · intro k'
    by_cases hk' : k' = i / (64 / b)
    · subst hk'
      have hkv : i / (64 / b) * (64 / b) ≤ i := Nat.div_mul_le_self i _
      have hklen : i / (64 / b) < ((chunksOf (64 / b - 1) vs).map (chunkVal (2 ^ b))).length := by
        rw [List.length_map, chunksOf_length, hm1]
        have hmul : (i / (64 / b) + 1) * (64 / b) = i / (64 / b) * (64 / b) + 64 / b := by ring
        refine Nat.le_div_iff_mul_le (by omega) |>.mpr ?_
        rw [Nat.succ_eq_add_one]
        omega
      rw [getD_set, if_pos ⟨rfl, hklen⟩]
      rw [words_getD b hb1 hb64 (vs.set i v), chunk_set_eq (64 / b) i v vs hvpw hi]
      rw [words_getD b hb1 hb64 vs]
      have hdm : 64 / b * (i / (64 / b)) + i % (64 / b) = i := Nat.div_add_mod i (64 / b)
      have hjv : i % (64 / b) < 64 / b := Nat.mod_lt _ (by omega)
      have hj : i % (64 / b) < ((vs.drop (i / (64 / b) * (64 / b))).take (64 / b)).length := by
        rw [List.length_take, List.length_drop]
        have hcm : i / (64 / b) * (64 / b) = 64 / b * (i / (64 / b)) := Nat.mul_comm _ _
        omega
      have hcdig : ∀ x ∈ (vs.drop (i / (64 / b) * (64 / b))).take (64 / b), x < 2 ^ b :=
        fun x hx => hdig x (List.drop_subset _ _ (List.take_subset _ _ hx))
      have h3 : ((2 : Nat) ^ b) ^ (i % (64 / b)) = 2 ^ (i % (64 / b) * b) := by
        rw [← pow_mul, Nat.mul_comm]
      have hlo : chunkVal (2 ^ b) (((vs.drop (i / (64 / b) * (64 / b))).take (64 / b)).take
          (i % (64 / b))) < 2 ^ (i % (64 / b) * b) := by
        have h1 := chunkVal_lt (2 ^ b) (((vs.drop (i / (64 / b) * (64 / b))).take
          (64 / b)).take (i % (64 / b))) (fun x hx => hcdig x (List.take_subset _ _ hx))
        have h2 : (((vs.drop (i / (64 / b) * (64 / b))).take (64 / b)).take
            (i % (64 / b))).length = i % (64 / b) := by
          rw [List.length_take]
          omega
        rw [h2, h3] at h1
        exact h1
      have hd : ((vs.drop (i / (64 / b) * (64 / b))).take (64 / b)).getD (i % (64 / b)) 0
          < 2 ^ b := hcdig _ (getD_mem _ _ 0 hj)
      have hsb : i % (64 / b) * b + b ≤ 64 := by
        have h1 : i % (64 / b) * b + b = (i % (64 / b) + 1) * b := by ring
        have h2 : (i % (64 / b) + 1) * b ≤ 64 / b * b :=
          Nat.mul_le_mul_right b (by omega)
        omega
      have hhi : chunkVal (2 ^ b) (((vs.drop (i / (64 / b) * (64 / b))).take (64 / b)).drop
          (i % (64 / b) + 1)) < 2 ^ (64 - (i % (64 / b) * b + b)) := by
        have h1 := chunkVal_lt (2 ^ b) (((vs.drop (i / (64 / b) * (64 / b))).take
          (64 / b)).drop (i % (64 / b) + 1)) (fun x hx => hcdig x (List.drop_subset _ _ hx))
        have h2 : ((2 : Nat) ^ b) ^ ((((vs.drop (i / (64 / b) * (64 / b))).take
            (64 / b)).drop (i % (64 / b) + 1)).length) = 2 ^ (b * ((((vs.drop
            (i / (64 / b) * (64 / b))).take (64 / b)).drop (i % (64 / b) + 1)).length)) := by
          rw [← pow_mul]
        rw [h2] at h1
        refine lt_of_lt_of_le h1 (Nat.pow_le_pow_right (by norm_num) ?_)
        rw [List.length_drop]
        have h4 : ((vs.drop (i / (64 / b) * (64 / b))).take (64 / b)).length ≤ 64 / b := by
          rw [List.length_take]
          omega
        have h5 : b * (((vs.drop (i / (64 / b) * (64 / b))).take (64 / b)).length -
            (i % (64 / b) + 1)) ≤ b * (64 / b - (i % (64 / b) + 1)) :=
          Nat.mul_le_mul_left b (by omega)
        have h6 : 64 / b - (i % (64 / b) + 1) + (i % (64 / b) + 1) = 64 / b := by omega
        have h7 : b * (64 / b - (i % (64 / b) + 1)) + b * (i % (64 / b) + 1) = b * (64 / b) := by
          rw [← Nat.mul_add, h6]
        have h8 : b * (i % (64 / b) + 1) = i % (64 / b) * b + b := by ring
        have h9 : b * (64 / b) = 64 / b * b := Nat.mul_comm _ _
        omega
      rw [chunkVal_dec (2 ^ b) _ (i % (64 / b)) hj, chunkVal_set_dec (2 ^ b) _ (i % (64 / b)) v hj,
        h3]
      exact setBits_surgery b (i % (64 / b) * b) _ _ _ v hlo hd hv hsb hhi
    · rw [getD_set, if_neg (fun h => hk' h.1.symm)]
      rw [words_getD b hb1 hb64 vs k', words_getD b hb1 hb64 (vs.set i v) k']
      rw [chunk_set_ne (64 / b) i v k' vs hvpw hk']

theorem word_digits_take (b : Nat) (c : List Nat) (hdig : ∀ v ∈ c, v < 2 ^ b)
    (hcl : c.length ≤ 64 / b) :
    ((List.range (64 / b)).map fun i => (chunkVal (2 ^ b) c >>> (i * b)) &&& (2 ^ b - 1)).take
      c.length = c := by
  apply eq_of_getD 0
  · rw [List.length_take, List.length_map, List.length_range]
    omega
  · intro k
    rw [getD_take]
    by_cases hk : k < c.length
    · rw [if_pos hk, getD_range_map, if_pos (by omega), word_extract b c hdig k hk]
    · rw [if_neg hk, List.getD_eq_default _ _ (by omega)]

theorem chunks_iter (b : Nat) (hb1 : 1 ≤ b) (hb64 : b ≤ 64) : ∀ (n : Nat) (vs : List Nat),
    vs.length ≤ n → (∀ v ∈ vs, v < 2 ^ b) →
    ((((chunksOf (64 / b - 1) vs).map (chunkVal (2 ^ b))).map fun w =>
        (List.range (64 / b)).map fun i => (w >>> (i * b)) &&& (2 ^ b - 1)).flatten).take
      vs.length = vs := by
  have hvpw : 1 ≤ 64 / b := Nat.one_le_div_iff (by omega) |>.mpr hb64
  have hm1 : 64 / b - 1 + 1 = 64 / b := by omega
  intro n
  induction n with
  | zero =>
    intro vs hn hdig
    match vs with
    | [] => simp [chunksOf]
  | succ n ih =>
    intro vs hn hdig
    match vs with
    | [] => simp [chunksOf]
    | v :: rest =>
      rw [chunksOf_cons_eq _ _ (by simp), hm1]
      simp only [List.map_cons, List.flatten_cons]
      by_cases hsmall : (v :: rest).length ≤ 64 / b
      · rw [List.take_of_length_le hsmall, List.drop_eq_nil_of_le hsmall]
        simp only [chunksOf, List.map_nil, List.flatten_nil, List.append_nil]
        exact word_digits_take b (v :: rest) hdig hsmall
      · push_neg at hsmall
        have hctake : ((v :: rest).take (64 / b)).length = 64 / b := by
          rw [List.length_take]
          omega
        have hcdig : ∀ x ∈ (v :: rest).take (64 / b), x < 2 ^ b :=
          fun x hx => hdig x (List.take_subset _ _ hx)
        have hrdig : ∀ x ∈ (v :: rest).drop (64 / b), x < 2 ^ b :=
          fun x hx => hdig x (List.drop_subset _ _ hx)
        have hfull : ((List.range (64 / b)).map fun i =>
            (chunkVal (2 ^ b) ((v :: rest).take (64 / b)) >>> (i * b)) &&& (2 ^ b - 1))
            = (v :: rest).take (64 / b) := by
          have h := word_digits_take b ((v :: rest).take (64 / b)) hcdig (by omega)
          rwa [hctake, List.take_of_length_le
            (by rw [List.length_map, List.length_range])] at h
        rw [hfull]
        have happ : ∀ (X : List Nat) (nn : Nat), ((((v :: rest).take (64 / b)) ++ X).take
            (((v :: rest).take (64 / b)).length + nn)) =
            ((v :: rest).take (64 / b)) ++ X.take nn := fun X nn => List.take_append nn
        have hlen2 : (v :: rest).length = ((v :: rest).take (64 / b)).length +
            ((v :: rest).drop (64 / b)).length := by
          rw [hctake, List.length_drop]
          omega
        rw [hlen2, happ]
        have hrlen : ((v :: rest).drop (64 / b)).length ≤ n := by
          rw [List.length_drop]
          simp only [List.length_cons] at hn ⊢
          omega
        rw [ih ((v :: rest).drop (64 / b)) hrlen hrdig]
        exact List.take_append_drop _ _

theorem from_iter_iter (b : Nat) (hb1 : 1 ≤ b) (hb64 : b ≤ 64) (vs : List Nat)
    (hdig : ∀ v ∈ vs, v < 2 ^ b) :
    (PackedArray.from_iter vs b).iter = vs := by
  rw [from_iter_spec b hb1 hb64 vs.length vs (le_refl _) hdig, iter_mk]
  exact chunks_iter b hb1 hb64 vs.length vs (le_refl _) hdig

theorem chunkVal_replicate_zero (B : Nat) (n : Nat) : chunkVal B (List.replicate n 0) = 0 := by
  induction n with
  | zero => rfl
  | succ n ih =>
    rw [List.replicate_succ]
    show 0 + B * chunkVal B (List.replicate n 0) = 0
    rw [ih]
    ring

theorem new_eq_from_iter (L b : Nat) (hb1 : 1 ≤ b) (hb64 : b ≤ 64) :
    PackedArray.new L b = PackedArray.from_iter (List.replicate L 0) b := by
  have hvpw : 1 ≤ 64 / b := Nat.one_le_div_iff (by omega) |>.mpr hb64
  have hm1 : 64 / b - 1 + 1 = 64 / b := by omega
  rw [from_iter_spec b hb1 hb64 (List.replicate L 0).length _ (le_refl _)
    (fun v hv => by rw [List.eq_of_mem_replicate hv]; exact Nat.pos_pow_of_pos b (by norm_num))]
  rw [new_mk]
  simp only [List.length_replicate, PackedArray.mk.injEq, true_and]
  apply eq_of_getD 0
  · rw [List.length_replicate, List.length_map, chunksOf_length, List.length_replicate, hm1]
    have hnum : L + 64 / b - 1 = L + (64 / b - 1) := by omega
    rw [hnum]
  · intro k
    rw [words_getD b hb1 hb64, List.drop_replicate, List.take_replicate,
      chunkVal_replicate_zero]
    rw [List.getD_eq_getElem?_getD, List.getElem?_getD_replicate_default_eq]

theorem resized_from_iter (b b' : Nat) (hb1 : 1 ≤ b) (hb64 : b ≤ 64) (vs : List Nat)
    (hdig : ∀ v ∈ vs, v < 2 ^ b) :
    (PackedArray.from_iter vs b).resized b' = PackedArray.from_iter vs b' := by
  show PackedArray.from_iter (PackedArray.from_iter vs b).iter b' = _
  rw [from_iter_iter b hb1 hb64 vs hdig]

theorem toU32_small (v : Int) (h0 : 0 ≤ v) (h : v < 2 ^ 32) : toU32 v = v.toNat := by
  unfold toU32
  rw [Int.emod_eq_of_lt h0 (by exact_mod_cast h)]

theorem toI32_small (n : Nat) (h : n < 2 ^ 31) : toI32 n = n := by
  unfold toI32
  rw [if_pos h]

theorem toU64_small (v : Int) (h0 : 0 ≤ v) (h : v < 2 ^ 64) : toU64 v = v.toNat := by
  unfold toU64
  rw [Int.emod_eq_of_lt h0 (by exact_mod_cast h)]

theorem specIndex_lt (p : Position) (hp : inRange16 p) : specIndex p < 4096 := by
  obtain ⟨hx0, hx, hy0, hy, hz0, hz⟩ := hp
  unfold specIndex
  omega

theorem specIndex_inj (p q : Position) (hp : inRange16 p) (hq : inRange16 q)
    (h : specIndex p = specIndex q) : p = q := by
  obtain ⟨hpx0, hpx, hpy0, hpy, hpz0, hpz⟩ := hp
  obtain ⟨hqx0, hqx, hqy0, hqy, hqz0, hqz⟩ := hq
  unfold specIndex at h
  have hex : p.x = q.x := by omega
  have hey : p.y = q.y := by omega
  have hez : p.z = q.z := by omega
  exact Position.ext hex hez hey

theorem mem_getD {α : Type} (l : List α) (x : α) (d : α) (h : x ∈ l) :
    ∃ i, i < l.length ∧ l.getD i d = x := by
  obtain ⟨i, hi, hx⟩ := List.getElem_of_mem h
  refine ⟨i, hi, ?_⟩
  rw [List.getD_eq_getElem?_getD, List.getElem?_eq_getElem hi]
  simpa using hx

theorem nodup_subset_length {α : Type} [DecidableEq α] (l1 l2 : List α) (h : l1.Nodup)
    (s : l1 ⊆ l2) : l1.length ≤ l2.length := by
  have h1 : l1.toFinset.card = l1.length := List.toFinset_card_of_nodup h
  have h2 : l1.toFinset ⊆ l2.toFinset := by
    intro x hx
    rw [List.mem_toFinset] at hx ⊢
    exact s hx
  have h3 : l1.toFinset.card ≤ l2.toFinset.card := Finset.card_le_card h2
  have h4 : l2.toFinset.card ≤ l2.length := l2.toFinset_card_le
  omega

theorem lookupIdx_some (l : List PaletteValue) (v : PaletteValue) :
    ∀ id, lookupIdx l v = some id → id < l.length ∧ ∀ d, l.getD id d = v := by
  induction l with
  | nil => intro id h; simp [lookupIdx] at h
  | cons e rest ih =>
    intro id h
    by_cases he : e = v
    · rw [lookupIdx, if_pos he] at h
      injection h with h'
      subst h'
      exact ⟨by simp, fun d => by simp [he]⟩
    · rw [lookupIdx, if_neg he] at h
      obtain ⟨id', h1, h2⟩ := Option.map_eq_some'.mp h
      obtain ⟨hlt, hget⟩ := ih id' h1
      subst h2
      refine ⟨by simp; omega, fun d => ?_⟩
      simpa using hget d

theorem block_index_blocks (c : PalettedContainer) (hk : c.kind = .blocks) (p : Position)
    (hp : inRange16 p) : c.block_index p = some (specIndex p) := by
  obtain ⟨hx0, hx, hy0, hy, hz0, hz⟩ := hp
  have hxn : p.x.toNat < 16 := by omega
  have hyn : p.y.toNat < 16 := by omega
  have hzn : p.z.toNat < 16 := by omega
  have hxe : (p.x.toNat : Int) = p.x := Int.toNat_of_nonneg hx0
  have hye : (p.y.toNat : Int) = p.y := Int.toNat_of_nonneg hy0
  have hze : (p.z.toNat : Int) = p.z := Int.toNat_of_nonneg hz0
  simp only [PalettedContainer.block_index, hk, PaletteKind.section_edge, SECTION_EDGE]
  rw [if_neg (by omega)]
  have e1 : i32shl p.y 8 = ((p.y.toNat * 2 ^ 8 : Nat) : Int) := by
    unfold i32shl
    rw [toU32_small p.y hy0 (by omega), Nat.shiftLeft_eq, Nat.mod_eq_of_lt (by omega),
      toI32_small _ (by omega)]
  have e2 : i32shl p.z 4 = ((p.z.toNat * 2 ^ 4 : Nat) : Int) := by
    unfold i32shl
    rw [toU32_small p.z hz0 (by omega), Nat.shiftLeft_eq, Nat.mod_eq_of_lt (by omega),
      toI32_small _ (by omega)]
  have e3 : i32or (i32shl p.y 8) (i32shl p.z 4)
      = ((p.z.toNat * 2 ^ 4 + p.y.toNat * 2 ^ 8 : Nat) : Int) := by
    rw [e1, e2]
    unfold i32or
    rw [toU32_small _ (by omega) (by omega), toU32_small _ (by omega) (by omega),
      Int.toNat_natCast, Int.toNat_natCast]
    have hlor : p.y.toNat * 2 ^ 8 ||| p.z.toNat * 2 ^ 4
        = p.z.toNat * 2 ^ 4 + p.y.toNat * 2 ^ 8 := by
      rw [Nat.lor_comm]
      exact lor_small_eq_add p.y.toNat 8 (by omega)
    rw [hlor, toI32_small _ (by omega)]
  have e4 : i32or (i32or (i32shl p.y 8) (i32shl p.z 4)) p.x
      = ((p.x.toNat + (p.z.toNat + p.y.toNat * 2 ^ 4) * 2 ^ 4 : Nat) : Int) := by
    rw [e3]
    unfold i32or
    rw [toU32_small _ (by omega) (by omega), toU32_small p.x hx0 (by omega),
      Int.toNat_natCast]
    have hshape : p.z.toNat * 2 ^ 4 + p.y.toNat * 2 ^ 8
        = (p.z.toNat + p.y.toNat * 2 ^ 4) * 2 ^ 4 := by ring
    rw [hshape, Nat.lor_comm]
    have hlor : p.x.toNat ||| (p.z.toNat + p.y.toNat * 2 ^ 4) * 2 ^ 4
        = p.x.toNat + (p.z.toNat + p.y.toNat * 2 ^ 4) * 2 ^ 4 :=
      lor_small_eq_add _ 4 (by omega)
    rw [hlor, toI32_small _ (by omega)]
  rw [e4, toU64_small _ (by omega) (by omega), Int.toNat_natCast]
  unfold specIndex
  congr 1
  omega

theorem replicate_getD_zero (n k : Nat) : (List.replicate n (0 : Nat)).getD k 0 = 0 := by
  rw [List.getD_eq_getElem?_getD, List.getElem?_getD_replicate_default_eq]

theorem blocksInv_init : blocksInv (List.replicate 4096 0) [] PalettedContainer.new_blocks := by
  refine ⟨rfl, by rw [List.length_replicate], ?_, Or.inr ⟨Palette.new .blocks, rfl, ?_⟩⟩
  · intro w hw
    rw [List.eq_of_mem_replicate hw]
    norm_num
  · refine ⟨rfl, ?_, by intro w hw; simp at hw, 4, List.replicate 4096 0, by norm_num,
      by norm_num, by decide, by rw [List.length_replicate], ?_, ?_⟩
    · intro e he
      simp only [Palette.new, List.mem_singleton] at he
      exact ⟨0, he, by norm_num⟩
    · exact new_eq_from_iter 4096 4 (by norm_num) (by norm_num)
    · intro i hi
      rw [replicate_getD_zero]
      exact ⟨by decide, by decide⟩

theorem blocksInv_get (vs written : List Nat) (c : PalettedContainer)
    (hinv : blocksInv vs written c) (p : Position) (hp : inRange16 p) :
    c.get_at p = some (PaletteValue.block (vs.getD (specIndex p) 0)) := by
  obtain ⟨hkind, hlen, hdig, hcase⟩ := hinv
  have hbi := block_index_blocks c hkind p hp
  have hidx := specIndex_lt p hp
  rcases hcase with ⟨hnone, hdata⟩ |
    ⟨pal, hsome, hpk, hent, hwr, b, ids, hb4, hb8, hple, hil, hdata, hmap⟩
  · simp only [PalettedContainer.get_at, hbi, hnone, hdata, hkind]
    rw [from_iter_get 15 (by norm_num) (by norm_num) vs hdig (specIndex p) (by omega)]
    simp only [Option.map_some', PaletteKind.int_val]
    have hsmall : vs.getD (specIndex p) 0 < 2 ^ 15 := hdig _ (getD_mem vs _ 0 (by omega))
    rw [Nat.mod_eq_of_lt (by omega)]
  · simp only [PalettedContainer.get_at, hbi, hsome, hdata]
    have hdigids : ∀ x ∈ ids, x < 2 ^ b := by
      intro x hx
      obtain ⟨i, hi, hgx⟩ := mem_getD ids x 0 hx
      have h1 := (hmap i (by omega)).1
      rw [hgx] at h1
      omega
    rw [from_iter_get b (by omega) (by omega) ids hdigids (specIndex p) (by omega)]
    simp only [Option.map_some']
    have h1 := (hmap (specIndex p) hidx).1
    have h2 : (2 : Nat) ^ b ≤ 2 ^ 8 := Nat.pow_le_pow_right (by norm_num) hb8
    rw [Nat.mod_eq_of_lt (by omega), (hmap (specIndex p) hidx).2]

theorem promoteGo_spec (pal : Palette) (kind : PaletteKind) (ids : List Nat)
    (hlen : ids.length = 4096) (hid15 : ∀ id ∈ ids, id < 2 ^ 15)
    (hf : ∀ id ∈ ids, (pal.get id).toU64 < 2 ^ 15) :
    ∀ n, n ≤ 4096 →
    promoteGo pal kind n (PackedArray.from_iter ids 15) =
      some (PackedArray.from_iter
        ((ids.take n).map (fun id => (pal.get id).toU64) ++ ids.drop n) 15) := by
  intro n
  induction n with
  | zero =>
    intro _
    simp only [promoteGo, List.take_zero, List.map_nil, List.nil_append, List.drop_zero]
  | succ n ih =>
    intro hn
    have hrec := ih (by omega)
    have hnl : n < ids.length := by omega
    have hA : ((ids.take n).map (fun id => (pal.get id).toU64)).length = n := by
      rw [List.length_map, List.length_take]
      omega
    have hyblen : ((ids.take n).map (fun id => (pal.get id).toU64) ++ ids.drop n).length
        = 4096 := by
      rw [List.length_append, List.length_map, List.length_take, List.length_drop]
      omega
    have hybdig : ∀ x ∈ (ids.take n).map (fun id => (pal.get id).toU64) ++ ids.drop n,
        x < 2 ^ 15 := by
      intro x hx
      rcases List.mem_append.mp hx with h | h
      · obtain ⟨id, hid, hxe⟩ := List.mem_map.mp h
        rw [← hxe]
        exact hf id (List.take_subset _ _ hid)
      · exact hid15 x (List.drop_subset _ _ h)
    have hgetn : ids.getD n 0 = ids.get ⟨n, hnl⟩ := by
      rw [List.getD_eq_getElem?_getD, List.getElem?_eq_getElem hnl]
      rfl
    have hgn : ((ids.take n).map (fun id => (pal.get id).toU64) ++ ids.drop n).getD n 0
        = ids.getD n 0 := by
      rw [getD_append_ge _ _ n 0 (by omega), hA, Nat.sub_self, getD_drop, Nat.add_zero]
    have hmem : ids.getD n 0 ∈ ids := getD_mem ids n 0 hnl
    have hget := from_iter_get 15 (by norm_num) (by norm_num) _ hybdig n (by omega)
    have hmod : ids.getD n 0 % 2 ^ 32 = ids.getD n 0 :=
      Nat.mod_eq_of_lt (by have := hid15 _ hmem; omega)
    have hset := from_iter_set 15 (by norm_num) (by norm_num) _ hybdig n
      ((pal.get (ids.getD n 0)).toU64) (by omega) (hf _ hmem)
    have hlist : ((ids.take n).map (fun id => (pal.get id).toU64) ++ ids.drop n).set n
          ((pal.get (ids.getD n 0)).toU64)
        = (ids.take (n + 1)).map (fun id => (pal.get id).toU64) ++ ids.drop (n + 1) := by
      have hdropn : ids.drop n = ids.get ⟨n, hnl⟩ :: ids.drop (n + 1) :=
        List.drop_eq_getElem_cons hnl
      have htaken : ids.take (n + 1) = ids.take n ++ [ids.get ⟨n, hnl⟩] := by
        rw [List.take_succ, List.getElem?_eq_getElem hnl]
        rfl
      rw [hdropn, List.set_append_right _ _ (by omega), hA, Nat.sub_self, List.set_cons_zero]
      rw [htaken, List.map_append, hgetn]
      simp [List.append_assoc]
    simp only [promoteGo, hrec, hget, hgn, hmod, hset, hlist]

theorem blocksInv_step (vs written : List Nat) (c : PalettedContainer)
    (hinv : blocksInv vs written c) (p : Position) (hp : inRange16 p) (v : Nat)
    (hv : v < 2 ^ 15) :
    ∃ c2, c.set_at p (.block v) = .ok c2 ∧
      blocksInv (vs.set (specIndex p) v) (written ++ [v]) c2 := by
  obtain ⟨hkind, hlen, hdig, hcase⟩ := hinv
  have hbi := block_index_blocks c hkind p hp
  have hidx := specIndex_lt p hp
  have hdig2 : ∀ w ∈ vs.set (specIndex p) v, w < 2 ^ 15 := by
    intro w hw
    rcases List.mem_or_eq_of_mem_set hw with h | h
    · exact hdig w h
    · subst h; exact hv
  have hlen2 : (vs.set (specIndex p) v).length = 4096 := by rw [List.length_set, hlen]
  rcases hcase with ⟨hnone, hdata⟩ |
    ⟨pal, hsome, hpk, hent, hwr, b, ids, hb4, hb8, hple, hil, hdata, hmap⟩
  · have hset := from_iter_set 15 (by norm_num) (by norm_num) vs hdig (specIndex p) v
      (by omega) hv
    refine ⟨{ c with data := PackedArray.from_iter (vs.set (specIndex p) v) 15 }, ?_, ?_⟩
    · simp only [PalettedContainer.set_at, hbi, hnone, hdata, PaletteValue.toU64, hset]
    · exact ⟨hkind, hlen2, hdig2, Or.inl ⟨hnone, rfl⟩⟩
  · have hb1' : 1 ≤ b := by omega
    have hb64' : b ≤ 64 := by omega
    have hdigids : ∀ x ∈ ids, x < 2 ^ b := by
      intro x hx
      obtain ⟨i, hi, hgx⟩ := mem_getD ids x 0 hx
      have h1 := (hmap i (by omega)).1
      rw [hgx] at h1
      omega
    have hfields := from_iter_fields b hb1' hb64' ids hdigids
    have hmax : (PackedArray.from_iter ids b).max_value = 2 ^ b - 1 := by
      unfold PackedArray.max_value PackedArray.mask
      rw [hfields.2]
    cases hlook : lookupIdx pal.id_to_state (PaletteValue.block v) with
    | some id0 =>
      obtain ⟨hid0lt, hid0get⟩ := lookupIdx_some pal.id_to_state (PaletteValue.block v) id0 hlook
      have hcond : ¬(pal.len - 1 > 2 ^ b - 1) := by
        unfold Palette.len at *
        omega
      have hsetd := from_iter_set b hb1' hb64' ids hdigids (specIndex p) id0
        (by omega) (by unfold Palette.len at hple; omega)
      refine ⟨⟨some pal, PackedArray.from_iter (ids.set (specIndex p) id0) b, c.kind⟩, ?_, ?_⟩
      · simp only [PalettedContainer.set_at, hbi, hsome, Palette.index_or_insert, hlook,
          PalettedContainer.resize_palette, hdata, hmax, if_neg hcond, hsetd,
          PaletteValue.toU64, Bool.false_eq_true, if_false]
      · refine ⟨hkind, hlen2, hdig2, Or.inr ⟨pal, rfl, hpk, hent, ?_, b,
          ids.set (specIndex p) id0, hb4, hb8, hple, by rw [List.length_set, hil], rfl, ?_⟩⟩
        · intro w hw
          rcases List.mem_append.mp hw with h | h
          · exact hwr w h
          · simp only [List.mem_singleton] at h
            subst h
            have h2 := getD_mem pal.id_to_state id0 (PaletteValue.block w) hid0lt
            rwa [hid0get] at h2
        · intro i hi
          rw [getD_set]
          by_cases hie : specIndex p = i
          · rw [if_pos ⟨hie, by omega⟩]
            have hvs : (vs.set (specIndex p) v).getD i 0 = v := by
              rw [getD_set, if_pos ⟨hie, by omega⟩]
            rw [hvs]
            exact ⟨hid0lt, hid0get _⟩
          · rw [if_neg (fun h => hie h.1)]
            have hvs : (vs.set (specIndex p) v).getD i 0 = vs.getD i 0 := by
              rw [getD_set, if_neg (fun h => hie h.1)]
            rw [hvs]
            exact hmap i hi
    | none =>
      have hplen : pal.len = pal.id_to_state.length := rfl
      have hl1 : [PaletteValue.block v].length = 1 := rfl
      have hentA : ∀ e ∈ pal.id_to_state ++ [PaletteValue.block v],
          ∃ w, e = PaletteValue.block w ∧ w < 2 ^ 15 := by
        intro e he
        rcases List.mem_append.mp he with h | h
        · exact hent e h
        · simp only [List.mem_singleton] at h
          exact ⟨v, h, hv⟩
      have hwrA : ∀ w ∈ written ++ [v],
          PaletteValue.block w ∈ pal.id_to_state ++ [PaletteValue.block v] := by
        intro w hw
        rcases List.mem_append.mp hw with h | h
        · exact List.mem_append.mpr (Or.inl (hwr w h))
        · simp only [List.mem_singleton] at h
          subst h
          exact List.mem_append.mpr (Or.inr (by simp))
      have hgetApp : ∀ x < pal.id_to_state.length,
          (⟨pal.id_to_state ++ [PaletteValue.block v], pal.kind⟩ : Palette).get x
            = pal.get x := by
        intro x hx
        show (pal.id_to_state ++ [PaletteValue.block v]).getD x pal.kind.neutral
          = pal.id_to_state.getD x pal.kind.neutral
        exact getD_append_lt _ _ _ _ hx
      have hgetNew : (⟨pal.id_to_state ++ [PaletteValue.block v], pal.kind⟩ : Palette).get
          pal.id_to_state.length = PaletteValue.block v := by
        show (pal.id_to_state ++ [PaletteValue.block v]).getD pal.id_to_state.length
          pal.kind.neutral = PaletteValue.block v
        rw [getD_append_ge _ _ _ _ (le_refl _), Nat.sub_self]
        rfl
      rcases lt_or_eq_of_le hple with hlt | heqfull
      · -- room left in the palette: no resize
        have hresizeA : PalettedContainer.resize_palette
            ⟨some ⟨pal.id_to_state ++ [PaletteValue.block v], pal.kind⟩,
              PackedArray.from_iter ids b, c.kind⟩
            = some (⟨some ⟨pal.id_to_state ++ [PaletteValue.block v], pal.kind⟩,
              PackedArray.from_iter ids b, c.kind⟩, false) := by
          simp only [PalettedContainer.resize_palette, hmax]
          rw [if_neg (show ¬((⟨pal.id_to_state ++ [PaletteValue.block v], pal.kind⟩
            : Palette).len - 1 > 2 ^ b - 1) from by
            show ¬((pal.id_to_state ++ [PaletteValue.block v]).length - 1 > 2 ^ b - 1)
            rw [List.length_append]
            omega)]
        have hsetdA := from_iter_set b hb1' hb64' ids hdigids (specIndex p)
          pal.id_to_state.length (by omega) (by omega)
        refine ⟨⟨some ⟨pal.id_to_state ++ [PaletteValue.block v], pal.kind⟩,
          PackedArray.from_iter (ids.set (specIndex p) pal.id_to_state.length) b, c.kind⟩,
          ?_, ?_⟩
        · simp only [PalettedContainer.set_at, hbi, hsome, Palette.index_or_insert, hlook,
            hdata, hresizeA, hsetdA, PaletteValue.toU64, Bool.false_eq_true, if_false]
        · refine ⟨hkind, hlen2, hdig2, Or.inr ⟨⟨pal.id_to_state ++ [PaletteValue.block v],
            pal.kind⟩, rfl, hpk, hentA, hwrA, b, ids.set (specIndex p) pal.id_to_state.length,
            hb4, hb8, ?_, by rw [List.length_set, hil], rfl, ?_⟩⟩
          · show (pal.id_to_state ++ [PaletteValue.block v]).length ≤ 2 ^ b
            rw [List.length_append]
            omega
          · intro i hi
            rw [getD_set]
            by_cases hie : specIndex p = i
            · rw [if_pos ⟨hie, by omega⟩]
              have hvs : (vs.set (specIndex p) v).getD i 0 = v := by
                rw [getD_set, if_pos ⟨hie, by omega⟩]
              rw [hvs]
              refine ⟨?_, hgetNew⟩
              show pal.id_to_state.length < (pal.id_to_state ++ [PaletteValue.block v]).length
              rw [List.length_append]
              omega
            · rw [if_neg (fun h => hie h.1)]
              have hvs : (vs.set (specIndex p) v).getD i 0 = vs.getD i 0 := by
                rw [getD_set, if_neg (fun h => hie h.1)]
              rw [hvs]
              obtain ⟨h1, h2⟩ := hmap i hi
              refine ⟨?_, by rw [hgetApp _ (by omega)]; exact h2⟩
              show ids.getD i 0 < (pal.id_to_state ++ [PaletteValue.block v]).length
              rw [List.length_append]
              omega
      · -- palette full: the container grows or is promoted to direct mode
        have hpow : (2 : Nat) ^ b < 2 ^ (b + 1) := by
          rw [pow_succ]
          have := Nat.pos_pow_of_pos b (show 0 < 2 by norm_num)
          omega
        have hcondfull : ((⟨pal.id_to_state ++ [PaletteValue.block v], pal.kind⟩
            : Palette).len - 1 > 2 ^ b - 1) := by
          show (pal.id_to_state ++ [PaletteValue.block v]).length - 1 > 2 ^ b - 1
          rw [List.length_append]
          have := Nat.pos_pow_of_pos b (show 0 < 2 by norm_num)
          omega
        have hmb : PaletteKind.blocks.max_palette_bits = 8 := rfl
        rcases Nat.lt_or_ge b 8 with hblt | hbge
        · -- grow by one bit
          have hdigids2 : ∀ x ∈ ids, x < 2 ^ (b + 1) := by
            intro x hx
            have := hdigids x hx
            omega
          have hresizeB : PalettedContainer.resize_palette
              ⟨some ⟨pal.id_to_state ++ [PaletteValue.block v], pal.kind⟩,
                PackedArray.from_iter ids b, c.kind⟩
              = some (⟨some ⟨pal.id_to_state ++ [PaletteValue.block v], pal.kind⟩,
                PackedArray.from_iter ids (b + 1), c.kind⟩, false) := by
            simp only [PalettedContainer.resize_palette, hmax, hkind, hmb, hfields.2]
            rw [if_pos hcondfull, if_neg (by omega : ¬(b + 1 > 8)),
              resized_from_iter b (b + 1) hb1' hb64' ids hdigids]
          have hsetdB := from_iter_set (b + 1) (by omega) (by omega) ids hdigids2
            (specIndex p) pal.id_to_state.length (by omega) (by omega)
          refine ⟨⟨some ⟨pal.id_to_state ++ [PaletteValue.block v], pal.kind⟩,
            PackedArray.from_iter (ids.set (specIndex p) pal.id_to_state.length) (b + 1),
            c.kind⟩, ?_, ?_⟩
          · simp only [PalettedContainer.set_at, hbi, hsome, Palette.index_or_insert, hlook,
              hdata, hresizeB, hsetdB, PaletteValue.toU64, Bool.false_eq_true, if_false]
          · refine ⟨hkind, hlen2, hdig2, Or.inr ⟨⟨pal.id_to_state ++ [PaletteValue.block v],
              pal.kind⟩, rfl, hpk, hentA, hwrA, b + 1,
              ids.set (specIndex p) pal.id_to_state.length, by omega, by omega, ?_,
              by rw [List.length_set, hil], rfl, ?_⟩⟩
            · show (pal.id_to_state ++ [PaletteValue.block v]).length ≤ 2 ^ (b + 1)
              rw [List.length_append]
              omega
            · intro i hi
              rw [getD_set]
              by_cases hie : specIndex p = i
              · rw [if_pos ⟨hie, by omega⟩]
                have hvs : (vs.set (specIndex p) v).getD i 0 = v := by
                  rw [getD_set, if_pos ⟨hie, by omega⟩]
                rw [hvs]
                refine ⟨?_, hgetNew⟩
                show pal.id_to_state.length < (pal.id_to_state ++ [PaletteValue.block v]).length
                rw [List.length_append]
                omega
              · rw [if_neg (fun h => hie h.1)]
                have hvs : (vs.set (specIndex p) v).getD i 0 = vs.getD i 0 := by
                  rw [getD_set, if_neg (fun h => hie h.1)]
                rw [hvs]
                obtain ⟨h1, h2⟩ := hmap i hi
                refine ⟨?_, by rw [hgetApp _ (by omega)]; exact h2⟩
                show ids.getD i 0 < (pal.id_to_state ++ [PaletteValue.block v]).length
                rw [List.length_append]
                omega
        · -- at the maximum of 8 bits: promote to direct mode
          have hb8eq : b = 8 := by omega
          subst hb8eq
          have hid15 : ∀ id ∈ ids, id < 2 ^ 15 := by
            intro id hid
            have := hdigids id hid
            omega
          have hfapp : ∀ id ∈ ids, ((⟨pal.id_to_state ++ [PaletteValue.block v], pal.kind⟩
              : Palette).get id).toU64 < 2 ^ 15 := by
            intro id hid
            obtain ⟨i, hi, hgx⟩ := mem_getD ids id 0 hid
            obtain ⟨h1, h2⟩ := hmap i (by omega)
            rw [hgx] at h1 h2
            rw [hgetApp id (by omega), h2]
            exact hdig _ (getD_mem vs i 0 (by omega))
          have hmapf : ids.map (fun id => ((⟨pal.id_to_state ++ [PaletteValue.block v],
              pal.kind⟩ : Palette).get id).toU64) = vs := by
            apply eq_of_getD 0
            · rw [List.length_map]
              omega
            · intro k
              by_cases hk : k < 4096
              · rw [getD_map_lt _ _ _ _ 0 (by omega)]
                obtain ⟨h1, h2⟩ := hmap k hk
                rw [hgetApp _ (by omega), h2]
                rfl
              · rw [List.getD_eq_default _ _ (by rw [List.length_map]; omega),
                  List.getD_eq_default _ _ (by omega)]
          have hsb : PaletteKind.blocks.section_blocks = 4096 := rfl
          have hgb : PaletteKind.blocks.global_palette_bits = 15 := rfl
          have hresizeC : PalettedContainer.resize_palette
              ⟨some ⟨pal.id_to_state ++ [PaletteValue.block v], pal.kind⟩,
                PackedArray.from_iter ids 8, c.kind⟩
              = some (⟨none, PackedArray.from_iter vs 15, c.kind⟩, true) := by
            simp only [PalettedContainer.resize_palette, hmax, hkind, hmb, hsb, hgb,
              hfields.2]
            rw [if_pos hcondfull, if_pos (by omega : 8 + 1 > 8),
              resized_from_iter 8 15 hb1' hb64' ids hdigids,
              promoteGo_spec _ _ ids hil hid15 hfapp 4096 (le_refl _),
              List.take_of_length_le (by omega), List.drop_eq_nil_of_le (by omega),
              List.append_nil, hmapf]
          have hset15 := from_iter_set 15 (by norm_num) (by norm_num) vs hdig (specIndex p) v
            (by omega) hv
          refine ⟨⟨none, PackedArray.from_iter (vs.set (specIndex p) v) 15, c.kind⟩, ?_, ?_⟩
          · simp only [PalettedContainer.set_at, hbi, hsome, Palette.index_or_insert, hlook,
              hdata, hresizeC, hset15, PaletteValue.toU64, eq_self_iff_true, if_true]
          · exact ⟨hkind, hlen2, hdig2, Or.inl ⟨rfl, rfl⟩⟩

theorem applyOps_inv (ops : List (Position × Nat)) :
    ∀ (vs written : List Nat) (c : PalettedContainer), blocksInv vs written c →
    (∀ op ∈ ops, inRange16 op.1 ∧ op.2 < 2 ^ 15) →
    ∃ c2, applyOps c ops = some c2 ∧
      blocksInv (ops.foldl (fun a op => a.set (specIndex op.1) op.2) vs)
        (written ++ ops.map Prod.snd) c2 := by
  induction ops with
  | nil =>
    intro vs written c hinv hops
    exact ⟨c, rfl, by simpa using hinv⟩
  | cons op rest ih =>
    intro vs written c hinv hops
    obtain ⟨hp, hv⟩ := hops op (by simp)
    obtain ⟨c2, hset, hinv2⟩ := blocksInv_step vs written c hinv op.1 hp op.2 hv
    obtain ⟨c3, happ, hinv3⟩ := ih (vs.set (specIndex op.1) op.2) (written ++ [op.2]) c2 hinv2
      (fun o ho => hops o (by simp [ho]))
    refine ⟨c3, ?_, ?_⟩
    · simp only [applyOps, hset]
      exact happ
    · simp only [List.foldl_cons, List.map_cons]
      have happend2 : written ++ op.2 :: rest.map Prod.snd = (written ++ [op.2]) ++ rest.map Prod.snd := by
        simp [List.append_assoc]
      rw [happend2]
      exact hinv3

theorem foldl_set_getD (p : Position) (hp : inRange16 p) : ∀ (ops : List (Position × Nat))
    (vs : List Nat), vs.length = 4096 → (∀ op ∈ ops, inRange16 op.1) →
    (ops.foldl (fun a op => a.set (specIndex op.1) op.2) vs).getD (specIndex p) 0 =
      ops.foldl (fun acc op => if op.1 = p then op.2 else acc) (vs.getD (specIndex p) 0) := by
  intro ops
  induction ops with
  | nil => intro vs _ _; rfl
  | cons op rest ih =>
    intro vs hlen hops
    simp only [List.foldl_cons]
    have hkey : (vs.set (specIndex op.1) op.2).getD (specIndex p) 0 =
        if op.1 = p then op.2 else vs.getD (specIndex p) 0 := by
      by_cases heq : op.1 = p
      · rw [if_pos heq, heq, getD_set,
          if_pos ⟨rfl, by rw [hlen]; exact specIndex_lt p hp⟩]
      · rw [if_neg heq, getD_set, if_neg ?_]
        rintro ⟨h1, _⟩
        exact heq (specIndex_inj op.1 p (hops op (by simp)) hp h1)
    rw [ih (vs.set (specIndex op.1) op.2) (by rw [List.length_set, hlen])
      (fun o ho => hops o (by simp [ho])), hkey]

/-- C2: on a block paletted container, `get_at` at any in-range position
returns the most recently `set_at` value there (air when never written), across
palette growth and promotion to direct mode; and writing 4096 distinct values
leaves the container in direct mode (no palette). -/
theorem C2_set_get_roundtrip (ops : List (Position × Nat))
    (hops : ∀ op ∈ ops, inRange16 op.1 ∧ op.2 < 2 ^ 15) :
    ∃ c, applyOps PalettedContainer.new_blocks ops = some c ∧
      (∀ p, inRange16 p → c.get_at p = some (PaletteValue.block (lastWrite ops p))) ∧
      ((ops.map Prod.snd).Nodup → ops.length = 4096 → c.palette = none) := by
  obtain ⟨c, happ, hinv⟩ := applyOps_inv ops (List.replicate 4096 0) [] _ blocksInv_init hops
  refine ⟨c, happ, ?_, ?_⟩
  · intro p hp
    rw [blocksInv_get _ _ c hinv p hp]
    rw [foldl_set_getD p hp ops _ (by rw [List.length_replicate])
      (fun op ho => (hops op ho).1)]
    rw [replicate_getD_zero]
    rfl
  · intro hnd hlen4096
    obtain ⟨hkind, hL, hD, hcase⟩ := hinv
    rcases hcase with ⟨hnone, _⟩ | ⟨pal, hsome, hpk, hent, hwr, b, ids, hb4, hb8, hple, _⟩
    · exact hnone
    · exfalso
      have hwr2 : ∀ w ∈ ops.map Prod.snd, PaletteValue.block w ∈ pal.id_to_state := by
        intro w hw
        exact hwr w (by simpa using hw)
      have hsub : (ops.map Prod.snd).map PaletteValue.block ⊆ pal.id_to_state := by
        intro e he
        obtain ⟨w, hw, hwe⟩ := List.mem_map.mp he
        rw [← hwe]
        exact hwr2 w hw
      have hnd2 : ((ops.map Prod.snd).map PaletteValue.block).Nodup :=
        hnd.map (fun a b h => by injection h)
      have hle := nodup_subset_length _ _ hnd2 hsub
      have hlen2 : ((ops.map Prod.snd).map PaletteValue.block).length = 4096 := by
        rw [List.length_map, List.length_map, hlen4096]
      have hcap : (2 : Nat) ^ b ≤ 2 ^ 8 := Nat.pow_le_pow_right (by norm_num) hb8
      have hplen : pal.len = pal.id_to_state.length := rfl
      omega

theorem C2_set_get_roundtrip_witness :
    (∀ op ∈ [((Position.new 1 2 3 : Position), (7 : Nat)), (Position.new 1 2 3, 9)],
      inRange16 op.1 ∧ op.2 < 2 ^ 15) ∧
    (∃ c, applyOps PalettedContainer.new_blocks
        [((Position.new 1 2 3 : Position), (7 : Nat)), (Position.new 1 2 3, 9)] = some c ∧
      (∀ p, inRange16 p → c.get_at p = some (PaletteValue.block
        (lastWrite [((Position.new 1 2 3 : Position), (7 : Nat)), (Position.new 1 2 3, 9)] p))) ∧
      (([((Position.new 1 2 3 : Position), (7 : Nat)), (Position.new 1 2 3, 9)].map
          Prod.snd).Nodup →
        [((Position.new 1 2 3 : Position), (7 : Nat)), (Position.new 1 2 3, 9)].length = 4096 →
        c.palette = none)) :=
  ⟨by decide, C2_set_get_roundtrip _ (by decide)⟩

theorem C7_position_roundtrip_witness :
    (-2 ^ 25 ≤ (-10 : Int)) ∧ ((-10 : Int) < 2 ^ 25) ∧
    (-2 ^ 25 ≤ (33 : Int)) ∧ ((33 : Int) < 2 ^ 25) ∧
    (-2 ^ 11 ≤ (-5 : Int)) ∧ ((-5 : Int) < 2 ^ 11) ∧
    Position.read (Position.write (Position.new (-10) (-5) 33))
      = some (Position.new (-10) (-5) 33) :=
  ⟨by norm_num, by norm_num, by norm_num, by norm_num, by norm_num, by norm_num,
    C7_position_roundtrip (-10) (-5) 33 (by norm_num) (by norm_num) (by norm_num) (by norm_num)
      (by norm_num) (by norm_num)⟩

/-- C3 counterexample: the freshly constructed biome container does not
serialize as bitsPerValue 0, VarInt 39 and an empty long array (`[0, 39, 0]`);
its full 16-long backing array follows the single value. -/
theorem C3_single_value_counterexample :
    PalettedContainer.new_biomes.write [] ≠ [0, 39, 0] := by decide

/-- C3 (amended): a container whose palette holds exactly one entry writes the
byte 0 for bitsPerValue and one VarInt carrying the single value, but then the
data array's full serialization (its VarInt long count and longs) — for the
fresh biome container that is VarInt 16 followed by 16 zero longs, not an
empty long array. -/
theorem C3_single_value_encoding :
    (∀ (c : PalettedContainer) (pal : Palette) (order : List (Nat × PaletteValue)),
      c.palette = some pal → pal.len = 1 →
      c.write order = [0] ++ varIntWriteLoop (pal.id_to_state.getD 0 c.kind.neutral).u32 ++
        c.data.write) ∧
    PalettedContainer.new_biomes.write [] = [0, 39, 16] ++ List.replicate 128 0 := by
  constructor
  · intro c pal order hpal hlen
    simp only [PalettedContainer.write, hpal, if_pos hlen]
  · decide

theorem C3_single_value_encoding_witness :
    PalettedContainer.new_biomes.palette = some (Palette.new .biomes) ∧
    (Palette.new .biomes).len = 1 ∧
    PalettedContainer.new_biomes.write [] =
      [0] ++ varIntWriteLoop ((Palette.new .biomes).id_to_state.getD 0
        PalettedContainer.new_biomes.kind.neutral).u32 ++
        PalettedContainer.new_biomes.data.write :=
  ⟨rfl, rfl, C3_single_value_encoding.1 PalettedContainer.new_biomes (Palette.new .biomes) []
    rfl rfl⟩

/-- C4 (code bug evidence): `set_at` at the out-of-range position `x = -1`
panics (the negative coordinate passes `block_index`'s upper-bound-only check
and becomes a huge `usize`), while `x = 16` is caught and returns
`PositionOutOfBounds` as the claim states. -/
theorem C4_oob_set_panics :
    PalettedContainer.new_blocks.set_at (Position.new (-1) 0 0) (PaletteValue.block 1)
      = SetResult.panicked ∧
    PalettedContainer.new_blocks.set_at (Position.new 16 0 0) (PaletteValue.block 1)
      = SetResult.err (.positionOutOfBounds (Position.new 16 0 0)) := by
  constructor
  · decide
  · decide

/-- C5 (code bug evidence): two enumeration orders of the same palette map —
both permutations of the id-to-value entries — produce different serialized
bytes, so `Palette::write`'s output over the unordered `HashMap` iteration is
not a deterministic function of the mapping. -/
theorem C5_palette_write_order_dependent :
    ([((1 : Nat), PaletteValue.block 5), (0, PaletteValue.block 0),
        (2, PaletteValue.block 7)].Perm
      [((0 : Nat), PaletteValue.block 0), (1, PaletteValue.block 5),
        (2, PaletteValue.block 7)]) ∧
    Palette.writeWithOrder
        ⟨[PaletteValue.block 0, PaletteValue.block 5, PaletteValue.block 7], .blocks⟩
        [((1 : Nat), PaletteValue.block 5), (0, PaletteValue.block 0),
          (2, PaletteValue.block 7)] ≠
      Palette.writeWithOrder
        ⟨[PaletteValue.block 0, PaletteValue.block 5, PaletteValue.block 7], .blocks⟩
        [((0 : Nat), PaletteValue.block 0), (1, PaletteValue.block 5),
          (2, PaletteValue.block 7)] := by
  constructor
  · decide
  · decide

/-- C10: `set_block` with a non-air state at a position with a coordinate
`≥ 16` decrements the cached `air_count` (wrapping modulo `2 ^ 16`) before
returning `PositionOutOfBounds`: the section is not left unchanged on error. -/
theorem C10_air_count_decrement (s : ChunkSection) (pos : Position) (state : Nat)
    (hout : pos.x ≥ 16 ∨ pos.y ≥ 16 ∨ pos.z ≥ 16) (hstate : state ≠ AIR)
    (hair : s.air_count < 2 ^ 16) :
    s.set_block pos state =
      some ({ s with air_count := (s.air_count + 2 ^ 16 - 1) % 2 ^ 16 },
        Except.error (ProtError.positionOutOfBounds pos)) ∧
    (s.air_count + 2 ^ 16 - 1) % 2 ^ 16 ≠ s.air_count := by
  have hse : (s.blocks.kind.section_edge : Int) ≤ 16 := by
    cases s.blocks.kind <;> simp [PaletteKind.section_edge, SECTION_EDGE]
  have hbi : s.blocks.block_index pos = none := by
    unfold PalettedContainer.block_index
    rw [if_pos ?_]
    rcases hout with h | h | h
    · exact Or.inl (by omega)
    · exact Or.inr (Or.inl (by omega))
    · exact Or.inr (Or.inr (by omega))
  have hget : s.blocks.get_at pos = some s.blocks.kind.neutral := by
    simp only [PalettedContainer.get_at, hbi]
  have hblock : s.block pos = some AIR := by
    simp only [ChunkSection.block, hget, Option.map_some']
    cases s.blocks.kind <;> rfl
  have hupd : s.update_air_at pos state
      = some { s with air_count := (s.air_count + 2 ^ 16 - 1) % 2 ^ 16 } := by
    simp only [ChunkSection.update_air_at, hblock, Option.map_some']
    rw [if_pos ⟨True.intro, hstate⟩]
  have hsetat : s.blocks.set_at pos (PaletteValue.block state) =
      SetResult.err (ProtError.positionOutOfBounds pos) := by
    simp only [PalettedContainer.set_at, hbi]
  constructor
  · simp only [ChunkSection.set_block, hupd, hsetat]
  · omega

theorem C10_air_count_decrement_witness :
    (((Position.new 0 16 0).x ≥ 16 ∨ (Position.new 0 16 0).y ≥ 16 ∨
      (Position.new 0 16 0).z ≥ 16)) ∧ ((9 : Nat) ≠ AIR) ∧
    (ChunkSection.new.air_count < 2 ^ 16) ∧
    (ChunkSection.new.set_block (Position.new 0 16 0) 9 =
      some ({ ChunkSection.new with air_count :=
        (ChunkSection.new.air_count + 2 ^ 16 - 1) % 2 ^ 16 },
        Except.error (ProtError.positionOutOfBounds (Position.new 0 16 0))) ∧
      (ChunkSection.new.air_count + 2 ^ 16 - 1) % 2 ^ 16 ≠ ChunkSection.new.air_count) :=
  ⟨by decide, by decide, by decide,
    C10_air_count_decrement ChunkSection.new (Position.new 0 16 0) 9 (by decide) (by decide)
      (by decide)⟩

end Rustcraft
